import Mathlib

/-!
A shallow embedding of the `diy-router` ENC28J60 driver
(`src/router/src/enc28j60.rs`) and of the register-address enum generator
(`src/macros/src/lib.rs`), together with theorems checking the
natural-language specification of the repository against the code.

Modelling conventions:
* machine integers are `Nat`; every byte the driver constructs is below 256,
  and 16-bit splits are written with explicit `/ 256` and `% 256`;
* a Rust method on `&mut self` returning `Result<(), TransactionError>`
  becomes a function returning the new state together with an optional error
  (`Option (State × Option TransactionError)`, where the outer `none` stands
  for a Rust abort: a failing `unwrap`, an explicit abort, or out-of-bounds
  indexing);
* the `heapless` deques become Lists paired with the capacity checks the
  `heapless` operations perform (`push_back` fails exactly when the length
  equals the capacity);
* `heapless::Vec<u8, 2>` byte buffers become plain `List Nat`; every
  construction in the source is a literal array of at most two bytes, so the
  `from_iter`/`push` calls on them cannot overflow (claim C10 proves the
  corresponding length bound).
-/

namespace DiyRouter

/-- One of 4 memory banks for control registers (`Bank` in the source). -/
inductive Bank where
  | Bank0
  | Bank1
  | Bank2
  | Bank3
  deriving DecidableEq

/-- The `#[repr(u8)]` discriminant of a `Bank` (`bank as u8` in the source). -/
def Bank.toU8 : Bank → Nat
  | .Bank0 => 0b00
  | .Bank1 => 0b01
  | .Bank2 => 0b10
  | .Bank3 => 0b11

/-- `Bank::default()` is `Bank0`. -/
def Bank.default : Bank := .Bank0

/-- `make_enum!(pub RegisterAddress, 5)` generates an enum with the 32 values
`r00 = 0` through `r1F = 31`; we model it as `Fin 32`. -/
abbrev RegisterAddress := Fin 32

/-- Modelled from the spec: `RegisterAddress::next` is used by the driver
(`ControlRegister::next`) but is not defined anywhere under `src/`; the spec
describes it as the successor used to address the high byte of a word register
(address + 1).  The wrap-around at 31 is never exercised by any claim. -/
def RegisterAddress.next (a : RegisterAddress) : RegisterAddress :=
  ⟨(a.val + 1) % 32, Nat.mod_lt _ (by omega)⟩

/-- Represents a single control register (`ControlRegister` in the source). -/
structure ControlRegister where
  bank : Bank
  address : RegisterAddress
  deriving DecidableEq

/-- `ControlRegister::next`: the register at address + 1 in the same bank. -/
def ControlRegister.next (r : ControlRegister) : ControlRegister :=
  { r with address := r.address.next }

/- Operation codes for interfacing with the ENC28J60 (`OpCode` in the
source), as their `u8` discriminants. -/
namespace OpCode

/-- Read control register. -/
def RCR : Nat := 0b00000000
/-- Read buffer memory. -/
def RBM : Nat := 0b00111010
/-- Write control register. -/
def WCR : Nat := 0b01000000
/-- Write buffer memory. -/
def WBM : Nat := 0b01111010
/-- Bit field set. -/
def BFS : Nat := 0b10000000
/-- Bit field clear. -/
def BFC : Nat := 0b10100000
/-- System reset command. -/
def SRC : Nat := 0b11111111

end OpCode

/-- `ControlRegisterOperation`: either an outbound byte sequence (`Write`) or
an inbound buffer to be filled (`Read`).  The source buffers are
`heapless::Vec<u8, 2>`. -/
inductive ControlRegisterOperation where
  | Read (buffer : List Nat)
  | Write (buffer : List Nat)
  deriving DecidableEq

/-- Length of the byte buffer of an operation. -/
def ControlRegisterOperation.opLen : ControlRegisterOperation → Nat
  | .Read b => b.length
  | .Write b => b.length

/-- The two error kinds of the batching engine (`TransactionError`). -/
inductive TransactionError where
  | OperationsOutOfMemory
  | TransactionOutOfMemory
  deriving DecidableEq

/-- The transaction-batching engine (`Transactions<N, M>`): a flat operation
buffer of capacity `N` and a boundary-length queue of capacity `M`.  Deques
are modelled as lists with the front at the head. -/
structure Transactions (N M : Nat) where
  buffer : List ControlRegisterOperation
  bounds : List Nat
  deriving DecidableEq

/-- Result of an engine call that mutates the engine: `ok`/`err` carry the
resulting state (on `err` the Rust method returned early, so the carried
state is exactly what `self` held at that point); `fatal` models a failing
`unwrap` aborting the program. -/
inductive PushResult (N M : Nat) where
  | ok (t : Transactions N M)
  | err (e : TransactionError) (t : Transactions N M)
  | fatal
  deriving DecidableEq

/-- Result of `pop_transaction`: `empty` models `None` (the boundary queue
was empty; the engine is unchanged), `popped` carries the removed operation
run and the remaining engine, `fatal` models a failing `unwrap`. -/
inductive PopResult (N M : Nat) where
  | empty
  | popped (ops : List ControlRegisterOperation) (t : Transactions N M)
  | fatal
  deriving DecidableEq

/-- Increment the last element of a list (`*self.bounds.back_mut().unwrap() += 1`). -/
def incLast : List Nat → List Nat
  | [] => []
  | [n] => [n + 1]
  | n :: m :: rest => n :: incLast (m :: rest)

/-- `Transactions::push_operation`: push the operation onto the flat buffer
(failing with `OperationsOutOfMemory` when the buffer holds `N` entries),
open an implicit boundary of length 0 when none exists (this `push_back(0)`
is unwrapped, so it aborts when `M = 0`), then increment the most recent
boundary. -/
def Transactions.push_operation {N M : Nat} (t : Transactions N M)
    (operation : ControlRegisterOperation) : PushResult N M :=
  if t.buffer.length = N then .err .OperationsOutOfMemory t
  else if t.bounds = [] then
    if M = 0 then .fatal
    else .ok ⟨t.buffer ++ [operation], [0 + 1]⟩
  else .ok ⟨t.buffer ++ [operation], incLast t.bounds⟩

/-- `Transactions::new_transaction`: open a new empty boundary, failing with
`TransactionOutOfMemory` when the boundary queue holds `M` entries. -/
def Transactions.new_transaction {N M : Nat} (t : Transactions N M) : PushResult N M :=
  if t.bounds.length = M then .err .TransactionOutOfMemory t
  else .ok ⟨t.buffer, t.bounds ++ [0]⟩

/-- `Transactions::pop_transaction`: remove the oldest boundary length `k`
and move exactly `k` operations from the front of the flat buffer into a
fresh deque of capacity `N`.  Each moved operation is obtained by an
unwrapped `pop_front` and stored by an unwrapped `push_back`, so the loop
aborts unless `k` operations are available and `k` fits the result deque. -/
def Transactions.pop_transaction {N M : Nat} (t : Transactions N M) : PopResult N M :=
  match t.bounds with
  | [] => .empty
  | boundary :: rest =>
    if boundary ≤ t.buffer.length ∧ boundary ≤ N then
      .popped (t.buffer.take boundary) ⟨t.buffer.drop boundary, rest⟩
    else .fatal

/-- The driver state (`Enc28j60<N, M>`).  `erx_range` is an inclusive range
of 9-bit (`ux::u9`) addresses. -/
structure Enc28j60 (N M : Nat) where
  current_bank : Bank
  pending_transactions : Transactions N M
  erx_range : Nat × Nat
  ready : Bool
  deriving DecidableEq

/-- Result of a driver method on `&mut self` returning
`Result<(), TransactionError>`: the new driver state plus the error, if any;
the outer `none` models a Rust abort. -/
abbrev StepResult (N M : Nat) := Option (Enc28j60 N M × Option TransactionError)

/-- Sequencing of two fallible driver steps, mirroring the `?` operator: an
abort or an error in the first step short-circuits (keeping the state the
first step left behind). -/
def andThen {N M : Nat} (r : StepResult N M)
    (f : Enc28j60 N M → StepResult N M) : StepResult N M :=
  match r with
  | none => none
  | some (d, some e) => some (d, some e)
  | some (d, none) => f d

/-- Run one engine call on the driver's engine, lifting its outcome to a
driver step. -/
def Enc28j60.engineStep {N M : Nat} (d : Enc28j60 N M)
    (f : Transactions N M → PushResult N M) : StepResult N M :=
  match f d.pending_transactions with
  | .ok t => some ({ d with pending_transactions := t }, none)
  | .err e t => some ({ d with pending_transactions := t }, some e)
  | .fatal => none

/-- `Enc28j60::ECON` (`RegisterAddress::r1F`). -/
def ECON : RegisterAddress := 0x1F
/-- `Enc28j60::ESTAT` (`RegisterAddress::r1D`). -/
def ESTAT : RegisterAddress := 0x1D
/-- `Enc28j60::ERXSTL` (bank 0, `r08`). -/
def ERXSTL : ControlRegister := ⟨.Bank0, 0x08⟩
/-- `Enc28j60::ERXNDL` (bank 0, `r0A`). -/
def ERXNDL : ControlRegister := ⟨.Bank0, 0x0A⟩
/-- `Enc28j60::ERXDPTL` (bank 0, `r0C`). -/
def ERXDPTL : ControlRegister := ⟨.Bank0, 0x0C⟩
/-- `Enc28j60::ERXFCON` (bank 1, `r18`). -/
def ERXFCON : ControlRegister := ⟨.Bank1, 0x18⟩
/-- `Enc28j60::MACON1` (bank 2, `r00`). -/
def MACON1 : ControlRegister := ⟨.Bank2, 0x00⟩
/-- `Enc28j60::MACON3` (bank 2, `r02`). -/
def MACON3 : ControlRegister := ⟨.Bank2, 0x02⟩
/-- `Enc28j60::MACON4` (bank 2, `r03`). -/
def MACON4 : ControlRegister := ⟨.Bank2, 0x03⟩

/-- `Enc28j60::with_erx_range`: fresh driver, bank cache `Bank0`, empty
engine, not ready.  The `% 512` records that the range endpoints are `ux::u9`
values. -/
def Enc28j60.with_erx_range {N M : Nat} (start stop : Nat) : Enc28j60 N M :=
  { current_bank := Bank.default
    pending_transactions := ⟨[], []⟩
    erx_range := (start % 512, stop % 512)
    ready := false }

/-- `Enc28j60::with_erx_length`: range from `u9::min_value()` to `length`. -/
def Enc28j60.with_erx_length {N M : Nat} (length : Nat) : Enc28j60 N M :=
  { current_bank := Bank.default
    pending_transactions := ⟨[], []⟩
    erx_range := (0, length % 512)
    ready := false }

/-- `Enc28j60::write_to_control_register_address`: open a new transaction and
push the two-byte write `[WCR | address, value]`. -/
def Enc28j60.write_to_control_register_address {N M : Nat} (d : Enc28j60 N M)
    (address : RegisterAddress) (value : Nat) : StepResult N M :=
  andThen (d.engineStep fun t => t.new_transaction) fun d1 =>
    d1.engineStep fun t =>
      t.push_operation (.Write [OpCode.WCR ||| address.val, value])

/-- `Enc28j60::bit_field_set_to_control_register_address`: open a new
transaction and push the two-byte write `[BFS | address, value]`. -/
def Enc28j60.bit_field_set_to_control_register_address {N M : Nat} (d : Enc28j60 N M)
    (address : RegisterAddress) (value : Nat) : StepResult N M :=
  andThen (d.engineStep fun t => t.new_transaction) fun d1 =>
    d1.engineStep fun t =>
      t.push_operation (.Write [OpCode.BFS ||| address.val, value])

/-- `Enc28j60::set_bank`: skip entirely when the target bank equals the
cached bank, otherwise enqueue a bit-field-set to ECON and (only after that
succeeded) update the cache. -/
def Enc28j60.set_bank {N M : Nat} (d : Enc28j60 N M) (bank : Bank) : StepResult N M :=
  if bank = d.current_bank then some (d, none)
  else
    andThen (d.bit_field_set_to_control_register_address ECON bank.toU8) fun d1 =>
      some ({ d1 with current_bank := bank }, none)

/-- `Enc28j60::write_register`: bank elision followed by the register write. -/
def Enc28j60.write_register {N M : Nat} (d : Enc28j60 N M)
    (register : ControlRegister) (value : Nat) : StepResult N M :=
  andThen (d.set_bank register.bank) fun d1 =>
    d1.write_to_control_register_address register.address value

/-- `Enc28j60::write_word`: `let [low, high] = value.to_be_bytes()` followed
by two register writes.  NOTE: this mirrors the source faithfully —
`to_be_bytes` yields the most significant byte first, so the variable the
source names `low` holds `value / 256` (the high byte) and the variable named
`high` holds `value % 256` (the low byte). -/
def Enc28j60.write_word {N M : Nat} (d : Enc28j60 N M)
    (register : ControlRegister) (value : Nat) : StepResult N M :=
  let low := (value / 256) % 256
  let high := value % 256
  andThen (d.write_register register low) fun d1 =>
    d1.write_register register.next high

/-- `Enc28j60::init`: the fixed initialization sequence. -/
def Enc28j60.init {N M : Nat} (d : Enc28j60 N M) : StepResult N M :=
  let start := d.erx_range.1
  let stop := d.erx_range.2
  andThen (d.write_word ERXSTL start) fun d1 =>
  andThen (d1.write_word ERXNDL stop) fun d2 =>
  andThen (d2.write_word ERXDPTL start) fun d3 =>
  andThen (d3.write_register ERXFCON 0x00) fun d4 =>
  andThen (d4.write_register MACON1 0b00001101) fun d5 =>
  andThen (d5.write_word MACON3 0b11110111) fun d6 =>
  d6.write_word MACON4 0b000000

/-- The transaction synthesized by `poll_pending_transaction` while the
driver is not ready: write `RCR | ESTAT`, then read one byte. -/
def estatProbe : List ControlRegisterOperation :=
  [.Write [OpCode.RCR ||| ESTAT.val], .Read [0]]

/-- `Enc28j60::poll_pending_transaction`: while not ready, build and return
the ESTAT probe (its two operations are stored in a fresh deque of capacity
`N` by unwrapped `push_back` calls, so this aborts when `N < 2`); once ready,
hand out the next engine transaction. -/
def Enc28j60.poll_pending_transaction {N M : Nat} (d : Enc28j60 N M) :
    Option (Option (List ControlRegisterOperation) × Enc28j60 N M) :=
  if d.ready = false then
    if 2 ≤ N then some (some estatProbe, d) else none
  else
    match d.pending_transactions.pop_transaction with
    | .empty => some (none, d)
    | .popped ops t => some (some ops, { d with pending_transactions := t })
    | .fatal => none

/-- `Enc28j60::handle_transaction`: inspect the first operation; a write
containing the `RCR | ESTAT` instruction byte must be followed by a `Read`
operation (otherwise the source aborts with "Inconsistent transaction"), and
indexing byte 0 of that read buffer aborts when it is empty; bit 0 of that
byte set makes the driver ready.  Everything else is discarded unchanged. -/
def Enc28j60.handle_transaction {N M : Nat} (d : Enc28j60 N M)
    (transaction : List ControlRegisterOperation) : Option (Enc28j60 N M) :=
  match transaction with
  | [] => some d
  | .Write b :: rest =>
    if b.contains (OpCode.RCR ||| ESTAT.val) then
      match rest with
      | .Read operation :: _ =>
        match operation with
        | [] => none
        | b0 :: _ => if b0 &&& 0b00000001 = 1 then some { d with ready := true } else some d
      | _ => none
    else some d
  | .Read _ :: _ => some d

/-- `Enc28j60::read_register`: bank elision, then one transaction holding the
one-byte opcode write and a one-byte read placeholder. -/
def Enc28j60.read_register {N M : Nat} (d : Enc28j60 N M)
    (register : ControlRegister) : StepResult N M :=
  andThen (d.set_bank register.bank) fun d1 =>
  andThen (d1.engineStep fun t => t.new_transaction) fun d2 =>
  andThen (d2.engineStep fun t =>
      t.push_operation (.Write [OpCode.RCR ||| register.address.val])) fun d3 =>
    d3.engineStep fun t => t.push_operation (.Read [0])

/-! ### Call sequences and abstract models used by the claims -/

/-- A batching-engine producer call (claim C1 quantifies over these). -/
inductive BuildCall where
  | newT
  | push (op : ControlRegisterOperation)
  deriving DecidableEq

/-- Apply one producer call, succeeding only when the source call returns
`Ok` (the sequence "stays within the capacities"). -/
def applyBuild {N M : Nat} (t : Transactions N M) : BuildCall → Option (Transactions N M)
  | .newT => match t.new_transaction with
    | .ok t' => some t'
    | _ => none
  | .push op => match t.push_operation op with
    | .ok t' => some t'
    | _ => none

/-- Run a sequence of producer calls that all stay within capacity. -/
def runBuild {N M : Nat} : List BuildCall → Transactions N M → Option (Transactions N M)
  | [], t => some t
  | c :: cs, t => match applyBuild t c with
    | some t' => runBuild cs t'
    | none => none

/-- Modelled from the spec (abstract refinement model for C1): append an
operation to the most recently opened transaction, opening one implicitly
when none exists. -/
def pushLastGroup : List (List ControlRegisterOperation) → ControlRegisterOperation →
    List (List ControlRegisterOperation)
  | [], op => [[op]]
  | [g], op => [g ++ [op]]
  | g :: g2 :: gs, op => g :: pushLastGroup (g2 :: gs) op

/-- Modelled from the spec: the effect of one producer call on the abstract
list of transactions (oldest first). -/
def specApply (gs : List (List ControlRegisterOperation)) :
    BuildCall → List (List ControlRegisterOperation)
  | .newT => gs ++ [[]]
  | .push op => pushLastGroup gs op

/-- Modelled from the spec: the list of transactions, oldest first, that a
producer-call sequence describes. -/
def specGroups (calls : List BuildCall) : List (List ControlRegisterOperation) :=
  calls.foldl specApply []

/-- Repeatedly pop transactions until the engine yields none (fuelled; the
fuel used below is the boundary count, which each pop decreases). -/
def popAllGo {N M : Nat} : Nat → Transactions N M → List (List ControlRegisterOperation)
  | 0, _ => []
  | fuel + 1, t => match t.pop_transaction with
    | .popped ops t' => ops :: popAllGo fuel t'
    | _ => []

/-- All transactions the engine hands out, in order. -/
def popAll {N M : Nat} (t : Transactions N M) : List (List ControlRegisterOperation) :=
  popAllGo t.bounds.length t

/-- An arbitrary engine call (claim C7), including the consumer. -/
inductive EngineCall where
  | newT
  | push (op : ControlRegisterOperation)
  | pop
  deriving DecidableEq

/-- Apply one engine call, keeping the state the source leaves behind on an
`Err` return; `none` only on an abort. -/
def applyEngineAny {N M : Nat} (t : Transactions N M) : EngineCall → Option (Transactions N M)
  | .newT => match t.new_transaction with
    | .ok t' => some t'
    | .err _ t' => some t'
    | .fatal => none
  | .push op => match t.push_operation op with
    | .ok t' => some t'
    | .err _ t' => some t'
    | .fatal => none
  | .pop => match t.pop_transaction with
    | .empty => some t
    | .popped _ t' => some t'
    | .fatal => none

/-- Run a sequence of engine calls, whether each succeeds or fails. -/
def runEngineAny {N M : Nat} : List EngineCall → Transactions N M → Option (Transactions N M)
  | [], t => some t
  | c :: cs, t => match applyEngineAny t c with
    | some t' => runEngineAny cs t'
    | none => none

/-- A driver call through the interface (including the register writes that
`init` is built from). -/
inductive DriverCall where
  | initC
  | pollC
  | handleC (tx : List ControlRegisterOperation)
  | readRegC (r : ControlRegister)
  | writeRegC (r : ControlRegister) (v : Nat)
  | writeWordC (r : ControlRegister) (v : Nat)
  deriving DecidableEq

/-- Apply one driver call, keeping the state a failed call leaves behind;
`none` only on an abort. -/
def applyDriverAny {N M : Nat} (d : Enc28j60 N M) : DriverCall → Option (Enc28j60 N M)
  | .initC => (d.init).map Prod.fst
  | .pollC => (d.poll_pending_transaction).map Prod.snd
  | .handleC tx => d.handle_transaction tx
  | .readRegC r => (d.read_register r).map Prod.fst
  | .writeRegC r v => (d.write_register r v).map Prod.fst
  | .writeWordC r v => (d.write_word r v).map Prod.fst

/-- Run a sequence of driver calls, whether each succeeds or fails. -/
def runDriverAny {N M : Nat} : List DriverCall → Enc28j60 N M → Option (Enc28j60 N M)
  | [], d => some d
  | c :: cs, d => match applyDriverAny d c with
    | some d' => runDriverAny cs d'
    | none => none

/-- Apply one driver call requiring engine success (no capacity error). -/
def applyDriverOk {N M : Nat} (d : Enc28j60 N M) : DriverCall → Option (Enc28j60 N M)
  | .initC => match d.init with
    | some (d', none) => some d'
    | _ => none
  | .pollC => (d.poll_pending_transaction).map Prod.snd
  | .handleC tx => d.handle_transaction tx
  | .readRegC r => match d.read_register r with
    | some (d', none) => some d'
    | _ => none
  | .writeRegC r v => match d.write_register r v with
    | some (d', none) => some d'
    | _ => none
  | .writeWordC r v => match d.write_word r v with
    | some (d', none) => some d'
    | _ => none

/-- Run a sequence of driver calls in which no capacity error occurs. -/
def runDriverOk {N M : Nat} : List DriverCall → Enc28j60 N M → Option (Enc28j60 N M)
  | [], d => some d
  | c :: cs, d => match applyDriverOk d c with
    | some d' => runDriverOk cs d'
    | none => none

/-- Does the transaction start with a write operation carrying the
`RCR | ESTAT` instruction byte (the shape `handle_transaction` probes for)? -/
def firstIsProbeWrite : List ControlRegisterOperation → Bool
  | .Write b :: _ => b.contains (OpCode.RCR ||| ESTAT.val)
  | _ => false

/-- Is the first operation immediately followed by a read operation with a
non-empty buffer (the matching read of the ESTAT probe)? -/
def hasMatchingRead : List ControlRegisterOperation → Bool
  | _ :: .Read (_ :: _) :: _ => true
  | _ => false

/-- Is the transaction a completed ESTAT probe whose read byte has bit 0
set (the shape that flips `ready` to true)? -/
def observesReadyProbe : List ControlRegisterOperation → Bool
  | .Write b :: .Read (b0 :: _) :: _ =>
      b.contains (OpCode.RCR ||| ESTAT.val) && (b0 &&& 0b00000001 == 1)
  | _ => false

/-! ### Invariants used by the claims -/

/-- The engine invariant of the spec: the boundary lengths sum to the flat
buffer's length, and both deques respect their capacities. -/
def EngineInv {N M : Nat} (t : Transactions N M) : Prop :=
  t.bounds.sum = t.buffer.length ∧ t.buffer.length ≤ N ∧ t.bounds.length ≤ M

/-- The engine state corresponding to an abstract transaction list. -/
def GroupRepr {N M : Nat} (t : Transactions N M)
    (gs : List (List ControlRegisterOperation)) : Prop :=
  t.buffer = gs.flatten ∧ t.bounds = gs.map List.length

/-- Every operation in the engine's buffer fits its capacity-2 byte vector. -/
def BufOps2 {N M : Nat} (d : Enc28j60 N M) : Prop :=
  ∀ op ∈ d.pending_transactions.buffer, op.opLen ≤ 2

/-- Every queued boundary is positive. -/
def AllPosB {N M : Nat} (d : Enc28j60 N M) : Prop :=
  ∀ b ∈ d.pending_transactions.bounds, 0 < b

/-- What one enqueuing driver step does to the state, as far as the claims
care: `ready` is untouched and the flat operation buffer is only extended at
the back, by operations of at most two bytes. -/
def StepExtends {N M : Nat} (d d' : Enc28j60 N M) : Prop :=
  d'.ready = d.ready ∧
  ∃ L, d'.pending_transactions.buffer = d.pending_transactions.buffer ++ L
    ∧ ∀ op ∈ L, op.opLen ≤ 2

/-! ### The register-address enum generator (`make_enum`, `src/macros/src/lib.rs`) -/

/-- Uppercase hexadecimal digit, as produced by the Rust `{:02X}` format. -/
def hexDigit (n : Nat) : Char :=
  if n < 10 then Char.ofNat (48 + n) else Char.ofNat (55 + n)

/-- Hex digits of `n`, most significant first (empty for 0); fuelled. -/
def hexCharsGo : Nat → Nat → List Char → List Char
  | 0, _, acc => acc
  | fuel + 1, n, acc =>
    if n = 0 then acc
    else hexCharsGo fuel (n / 16) (hexDigit (n % 16) :: acc)

/-- Hex digits of `n`, most significant first (empty for 0). -/
def hexChars (n : Nat) : List Char := hexCharsGo n n []

/-- `format_ident!("r{:02X}", i)`: `r` followed by the value in uppercase
hexadecimal, zero-padded to at least two digits. -/
def variantName (i : Nat) : String :=
  let ds := hexChars i
  "r" ++ String.mk (List.replicate (2 - ds.length) '0' ++ ds)

/-- The enum emitted by the macro: a backing width (in bits) and the ordered
variant list of (name, discriminant) pairs. -/
structure GeneratedEnum where
  backingBits : Nat
  variants : List (String × Nat)

/-- The `repr_ty` match of the source, built from exclusive upper-bound range
patterns; note that `..18_446_744_073_709_551_615` excludes `u64::MAX`
itself. -/
def reprBitsFor (maxValue : Nat) : Nat :=
  if maxValue < 256 then 8
  else if maxValue < 65536 then 16
  else if maxValue < 4294967296 then 32
  else if maxValue < 18446744073709551615 then 64
  else 128

/-- Modelled from the spec (for refinement comparison only): the narrowest of
the unsigned widths 8/16/32/64/128 whose type holds `maxValue`. -/
def narrowestBits (maxValue : Nat) : Nat :=
  if maxValue < 2 ^ 8 then 8
  else if maxValue < 2 ^ 16 then 16
  else if maxValue < 2 ^ 32 then 32
  else if maxValue < 2 ^ 64 then 64
  else 128

/-- The source's
`max_value = 1u128.checked_shl(bits).map(|v| v - 1).unwrap_or(u128::MAX)`:
the shift succeeds exactly when `bits < 128`, and u128 arithmetic is `Nat`
with an explicit `% 2 ^ 128`. -/
def makeEnumMaxValue (bits : Nat) : Nat :=
  match (if bits < 128 then some ((1 <<< bits) % 2 ^ 128) else none).map (· - 1) with
  | some v => v
  | none => 2 ^ 128 - 1

/-- `make_enum` (`src/macros/src/lib.rs`): reject widths outside 1..=128;
compute `max_value`; pick the backing type; emit one variant per value
`0..=max_value`, in order. -/
def make_enum (bits : Nat) : Except String GeneratedEnum :=
  if 0 < bits ∧ bits ≤ 128 then
    .ok { backingBits := reprBitsFor (makeEnumMaxValue bits)
          variants := (List.range (makeEnumMaxValue bits + 1)).map fun i => (variantName i, i) }
  else .error "bits must be between 1 and 128"

/-! ### Lemmas about the batching engine -/

theorem incLast_length (l : List Nat) : (incLast l).length = l.length := by
  induction l with
  | nil => rfl
  | cons a l ih =>
    cases l with
    | nil => rfl
    | cons b l => simpa [incLast] using ih

theorem incLast_sum (l : List Nat) (h : l ≠ []) : (incLast l).sum = l.sum + 1 := by
  induction l with
  | nil => exact absurd rfl h
  | cons a l ih =>
    cases l with
    | nil => simp [incLast]
    | cons b l =>
      have hb := ih (by simp)
      simp only [incLast, List.sum_cons] at hb ⊢
      omega

theorem incLast_append_single (l : List Nat) (n : Nat) :
    incLast (l ++ [n]) = l ++ [n + 1] := by
  induction l with
  | nil => rfl
  | cons a l ih =>
    cases l with
    | nil => rfl
    | cons b l =>
      simp only [List.cons_append, incLast] at ih ⊢
      simp [ih]

theorem incLast_eq_nil_iff (l : List Nat) : incLast l = [] ↔ l = [] := by
  cases l with
  | nil => simp [incLast]
  | cons a l =>
    cases l with
    | nil => simp [incLast]
    | cons b l => simp [incLast]

theorem incLast_append (l1 l2 : List Nat) (h : l2 ≠ []) :
    incLast (l1 ++ l2) = l1 ++ incLast l2 := by
  induction l1 with
  | nil => rfl
  | cons a l1 ih =>
    have hne : l1 ++ l2 ≠ [] := by simp [h]
    cases hl : l1 ++ l2 with
    | nil => exact absurd hl hne
    | cons m r =>
      simp only [List.cons_append]
      rw [hl]
      simp only [incLast]
      rw [← hl, ih]

theorem pushLastGroup_flatten (gs : List (List ControlRegisterOperation))
    (op : ControlRegisterOperation) :
    (pushLastGroup gs op).flatten = gs.flatten ++ [op] := by
  induction gs with
  | nil => rfl
  | cons g gs ih =>
    cases gs with
    | nil => simp [pushLastGroup]
    | cons g2 gs =>
      simp only [pushLastGroup, List.flatten_cons] at ih ⊢
      simp [ih]

theorem pushLastGroup_map_length (gs : List (List ControlRegisterOperation))
    (op : ControlRegisterOperation) (h : gs ≠ []) :
    (pushLastGroup gs op).map List.length = incLast (gs.map List.length) := by
  induction gs with
  | nil => exact absurd rfl h
  | cons g gs ih =>
    cases gs with
    | nil => simp [pushLastGroup, incLast]
    | cons g2 gs =>
      have hb := ih (by simp)
      simp only [pushLastGroup, List.map_cons, incLast] at hb ⊢
      simp [hb]

theorem applyBuild_newT {N M : Nat} {t t' : Transactions N M}
    (h : applyBuild t .newT = some t') :
    t.bounds.length ≠ M ∧ t' = ⟨t.buffer, t.bounds ++ [0]⟩ := by
  unfold applyBuild Transactions.new_transaction at h
  by_cases hm : t.bounds.length = M
  · simp [hm] at h
  · simp [hm] at h
    exact ⟨hm, h.symm⟩

theorem applyBuild_push {N M : Nat} {t t' : Transactions N M} {op : ControlRegisterOperation}
    (h : applyBuild t (.push op) = some t') :
    t.buffer.length ≠ N ∧
    ((t.bounds = [] ∧ M ≠ 0 ∧ t' = ⟨t.buffer ++ [op], [1]⟩) ∨
     (t.bounds ≠ [] ∧ t' = ⟨t.buffer ++ [op], incLast t.bounds⟩)) := by
  unfold applyBuild Transactions.push_operation at h
  by_cases hn : t.buffer.length = N
  · simp [hn] at h
  · by_cases hb : t.bounds = []
    · by_cases hm : (M = 0)
      · simp [hn, hb, hm] at h
      · simp [hn, hb, hm] at h
        exact ⟨hn, .inl ⟨hb, hm, h.symm⟩⟩
    · simp [hn, hb] at h
      exact ⟨hn, .inr ⟨hb, h.symm⟩⟩

theorem applyBuild_repr {N M : Nat} {t t' : Transactions N M} {c : BuildCall}
    {gs : List (List ControlRegisterOperation)}
    (h : applyBuild t c = some t') (hr : GroupRepr t gs) (hlen : t.buffer.length ≤ N) :
    GroupRepr t' (specApply gs c) ∧ t'.buffer.length ≤ N := by
  obtain ⟨hbuf, hbnd⟩ := hr
  cases c with
  | newT =>
    obtain ⟨-, ht'⟩ := applyBuild_newT h
    subst ht'
    refine ⟨⟨by simp [hbuf, specApply], by simp [hbnd, specApply]⟩, hlen⟩
  | push op =>
    obtain ⟨hn, hcases⟩ := applyBuild_push h
    rcases hcases with ⟨hb, -, ht'⟩ | ⟨hb, ht'⟩
    · have hgs : gs = [] := by
        cases gs with
        | nil => rfl
        | cons g gs => rw [hb] at hbnd; simp at hbnd
      subst hgs ht'
      simp only [List.flatten_nil] at hbuf
      constructor
      · exact ⟨by simp [specApply, pushLastGroup, hbuf], by simp [specApply, pushLastGroup]⟩
      · show (t.buffer ++ [op]).length ≤ N
        simp only [List.length_append, List.length_cons, List.length_nil]
        omega
    · have hgs : gs ≠ [] := by
        intro hgs
        subst hgs
        simp at hbnd
        exact hb hbnd
      subst ht'
      constructor
      · constructor
        · simp [specApply, pushLastGroup_flatten, hbuf]
        · simp [specApply, pushLastGroup_map_length gs op hgs, hbnd]
      · show (t.buffer ++ [op]).length ≤ N
        simp only [List.length_append, List.length_cons, List.length_nil]
        omega

theorem runBuild_repr {N M : Nat} :
    ∀ (calls : List BuildCall) (t t' : Transactions N M)
      (gs : List (List ControlRegisterOperation)),
      GroupRepr t gs → t.buffer.length ≤ N → runBuild calls t = some t' →
      GroupRepr t' (calls.foldl specApply gs) ∧ t'.buffer.length ≤ N := by
  intro calls
  induction calls with
  | nil =>
    intro t t' gs hr hlen h
    simp only [runBuild] at h
    cases h
    exact ⟨hr, hlen⟩
  | cons c cs ih =>
    intro t t' gs hr hlen h
    simp only [runBuild] at h
    cases hc : applyBuild t c with
    | none => rw [hc] at h; cases h
    | some t1 =>
      rw [hc] at h
      obtain ⟨hr1, hlen1⟩ := applyBuild_repr hc hr hlen
      simpa only [List.foldl_cons] using ih t1 t' (specApply gs c) hr1 hlen1 h

theorem pop_transaction_of_bounds_nil {N M : Nat} {t : Transactions N M}
    (h : t.bounds = []) : t.pop_transaction = .empty := by
  unfold Transactions.pop_transaction
  rw [h]

theorem pop_transaction_cons {N M : Nat} {t : Transactions N M} {k : Nat} {rest : List Nat}
    (hb : t.bounds = k :: rest) (h1 : k ≤ t.buffer.length) (h2 : k ≤ N) :
    t.pop_transaction = .popped (t.buffer.take k) ⟨t.buffer.drop k, rest⟩ := by
  unfold Transactions.pop_transaction
  split
  · rename_i heq
    rw [hb] at heq
    cases heq
  · rename_i boundary rest' heq
    rw [hb] at heq
    injection heq with e1 e2
    subst e1 e2
    rw [if_pos ⟨h1, h2⟩]

theorem popAllGo_repr {N M : Nat} :
    ∀ (gs : List (List ControlRegisterOperation)) (t : Transactions N M),
      GroupRepr t gs → t.buffer.length ≤ N → popAllGo gs.length t = gs := by
  intro gs
  induction gs with
  | nil => intro t _ _; rfl
  | cons g gs ih =>
    intro t hr hlen
    obtain ⟨hbuf, hbnd⟩ := hr
    have hlen2 : g.length ≤ t.buffer.length := by
      rw [hbuf]; simp
    have hpop : t.pop_transaction =
        .popped g ⟨gs.flatten, gs.map List.length⟩ := by
      unfold Transactions.pop_transaction
      rw [hbnd]
      simp only [List.map_cons]
      rw [if_pos ⟨hlen2, le_trans hlen2 hlen⟩]
      rw [hbuf]
      simp [List.take_left, List.drop_left]
    simp only [List.length_cons, popAllGo, hpop]
    congr 1
    refine ih ⟨gs.flatten, gs.map List.length⟩ ⟨rfl, rfl⟩ ?_
    show gs.flatten.length ≤ N
    rw [hbuf] at hlen
    simp only [List.flatten_cons, List.length_append] at hlen
    omega

theorem popAll_of_groupRepr {N M : Nat} {t : Transactions N M}
    {gs : List (List ControlRegisterOperation)}
    (hr : GroupRepr t gs) (hlen : t.buffer.length ≤ N) : popAll t = gs := by
  have hb : t.bounds.length = gs.length := by
    rw [hr.2]; simp
  unfold popAll
  rw [hb]
  exact popAllGo_repr gs t hr hlen

theorem push_operation_err {N M : Nat} {t t' : Transactions N M}
    {op : ControlRegisterOperation} {e : TransactionError}
    (h : t.push_operation op = .err e t') : t' = t ∧ e = .OperationsOutOfMemory := by
  unfold Transactions.push_operation at h
  by_cases hn : t.buffer.length = N
  · rw [if_pos hn] at h
    injection h with h1 h2
    exact ⟨h2.symm, h1.symm⟩
  · rw [if_neg hn] at h
    by_cases hb : t.bounds = []
    · rw [if_pos hb] at h
      by_cases hm : M = 0
      · rw [if_pos hm] at h; exact absurd h (by simp)
      · rw [if_neg hm] at h; exact absurd h (by simp)
    · rw [if_neg hb] at h; exact absurd h (by simp)

theorem new_transaction_err {N M : Nat} {t t' : Transactions N M} {e : TransactionError}
    (h : t.new_transaction = .err e t') : t' = t ∧ e = .TransactionOutOfMemory := by
  unfold Transactions.new_transaction at h
  by_cases hm : t.bounds.length = M
  · rw [if_pos hm] at h
    injection h with h1 h2
    exact ⟨h2.symm, h1.symm⟩
  · rw [if_neg hm] at h; exact absurd h (by simp)

theorem pop_transaction_popped {N M : Nat} {t : Transactions N M}
    {ops : List ControlRegisterOperation} {t' : Transactions N M}
    (h : t.pop_transaction = .popped ops t') :
    t.buffer = ops ++ t'.buffer ∧ t.bounds = ops.length :: t'.bounds := by
  unfold Transactions.pop_transaction at h
  split at h
  · exact absurd h (by simp)
  · rename_i k rest hb
    by_cases hc : k ≤ t.buffer.length ∧ k ≤ N
    · rw [if_pos hc] at h
      injection h with h1 h2
      subst h1 h2
      constructor
      · exact (List.take_append_drop k t.buffer).symm
      · rw [hb, List.length_take]
        congr 1
        exact (Nat.min_eq_left hc.1).symm
    · rw [if_neg hc] at h
      exact absurd h (by simp)

theorem applyEngineAny_newT {N M : Nat} (t : Transactions N M) :
    applyEngineAny t .newT =
      some (if t.bounds.length = M then t else ⟨t.buffer, t.bounds ++ [0]⟩) := by
  unfold applyEngineAny Transactions.new_transaction
  by_cases hm : t.bounds.length = M <;> simp [hm]

theorem applyEngineAny_push {N M : Nat} (t : Transactions N M)
    (op : ControlRegisterOperation) :
    applyEngineAny t (.push op) =
      if t.buffer.length = N then some t
      else if t.bounds = [] then
        (if M = 0 then none else some ⟨t.buffer ++ [op], [1]⟩)
      else some ⟨t.buffer ++ [op], incLast t.bounds⟩ := by
  unfold applyEngineAny Transactions.push_operation
  by_cases hn : t.buffer.length = N
  · simp [hn]
  · by_cases hb : t.bounds = []
    · by_cases hm : M = 0 <;> simp [hn, hb, hm]
    · simp [hn, hb]

theorem applyEngineAny_inv {N M : Nat} {t t' : Transactions N M} {c : EngineCall}
    (h : applyEngineAny t c = some t') (hi : EngineInv t) : EngineInv t' := by
  obtain ⟨hsum, hbuf, hbnd⟩ := hi
  cases c with
  | newT =>
    rw [applyEngineAny_newT] at h
    injection h with h
    subst h
    by_cases hm : t.bounds.length = M
    · rw [if_pos hm]; exact ⟨hsum, hbuf, hbnd⟩
    · rw [if_neg hm]
      refine ⟨by simpa using hsum, hbuf, ?_⟩
      simp only [List.length_append, List.length_cons, List.length_nil]
      omega
  | push op =>
    rw [applyEngineAny_push] at h
    by_cases hn : t.buffer.length = N
    · rw [if_pos hn] at h
      injection h with h
      subst h
      exact ⟨hsum, hbuf, hbnd⟩
    · rw [if_neg hn] at h
      by_cases hb : t.bounds = []
      · rw [if_pos hb] at h
        by_cases hm : M = 0
        · rw [if_pos hm] at h; cases h
        · rw [if_neg hm] at h
          injection h with h
          subst h
          have hlen0 : t.buffer.length = 0 := by
            rw [hb] at hsum; simpa using hsum.symm
          refine ⟨?_, ?_, ?_⟩ <;>
            simp only [List.sum_cons, List.sum_nil, List.length_append,
              List.length_cons, List.length_nil] <;> omega
      · rw [if_neg hb] at h
        injection h with h
        subst h
        refine ⟨?_, ?_, ?_⟩
        · show (incLast t.bounds).sum = (t.buffer ++ [op]).length
          rw [incLast_sum t.bounds hb, List.length_append, hsum]
          simp
        · show (t.buffer ++ [op]).length ≤ N
          simp only [List.length_append, List.length_cons, List.length_nil]
          omega
        · show (incLast t.bounds).length ≤ M
          rw [incLast_length]
          exact hbnd
  | pop =>
    unfold applyEngineAny at h
    cases hp : t.pop_transaction with
    | empty => rw [hp] at h; injection h with h; subst h; exact ⟨hsum, hbuf, hbnd⟩
    | fatal => rw [hp] at h; cases h
    | popped ops t1 =>
      rw [hp] at h
      injection h with h
      rw [← h]
      obtain ⟨hbuf', hbnd'⟩ := pop_transaction_popped hp
      have h1 : t.buffer.length = ops.length + t1.buffer.length := by
        rw [hbuf']; simp
      have h2 : t.bounds.sum = ops.length + t1.bounds.sum := by
        rw [hbnd']; simp
      have h3 : t.bounds.length = t1.bounds.length + 1 := by
        rw [hbnd']; simp
      exact ⟨by omega, by omega, by omega⟩

theorem runEngineAny_inv {N M : Nat} :
    ∀ (calls : List EngineCall) (t t' : Transactions N M),
      EngineInv t → runEngineAny calls t = some t' → EngineInv t' := by
  intro calls
  induction calls with
  | nil =>
    intro t t' hi h
    simp only [runEngineAny] at h
    cases h
    exact hi
  | cons c cs ih =>
    intro t t' hi h
    simp only [runEngineAny] at h
    cases hc : applyEngineAny t c with
    | none => rw [hc] at h; cases h
    | some t1 =>
      rw [hc] at h
      exact ih t1 t' (applyEngineAny_inv hc hi) h

theorem popAllGo_length_of_inv {N M : Nat} :
    ∀ (n : Nat) (t : Transactions N M), EngineInv t → t.bounds.length = n →
      (popAllGo n t).length = n := by
  intro n
  induction n with
  | zero => intro t _ _; rfl
  | succ n ih =>
    intro t hi hlen
    obtain ⟨hsum, hbuf, hbnd⟩ := hi
    cases hb : t.bounds with
    | nil => rw [hb] at hlen; cases hlen
    | cons k rest =>
      have hsum' : k + rest.sum = t.buffer.length := by
        rw [hb] at hsum; simpa using hsum
      have hk : k ≤ t.buffer.length := by omega
      have hpop : t.pop_transaction = .popped (t.buffer.take k) ⟨t.buffer.drop k, rest⟩ :=
        pop_transaction_cons hb hk (le_trans hk hbuf)
      simp only [popAllGo, hpop, List.length_cons]
      congr 1
      refine ih ⟨t.buffer.drop k, rest⟩ ⟨?_, ?_, ?_⟩ ?_
      · show rest.sum = (t.buffer.drop k).length
        rw [List.length_drop]
        omega
      · show (t.buffer.drop k).length ≤ N
        rw [List.length_drop]
        omega
      · show rest.length ≤ M
        rw [hb] at hbnd
        simpa using Nat.le_of_succ_le hbnd
      · show rest.length = n
        rw [hb] at hlen
        simpa using hlen

/-- C1: for every sequence of `new_transaction`/`push_operation` calls that
stays within the capacities `N` and `M`, repeatedly popping returns each
transaction's operations in their original push order and the transactions
in the order their boundaries were opened (FIFO across and within
transactions); when the boundary queue is empty, `pop_transaction` produces
no value. -/
theorem claim_C1_engine_fifo {N M : Nat} (calls : List BuildCall) (t : Transactions N M)
    (h : runBuild calls ⟨[], []⟩ = some t) :
    popAll t = specGroups calls ∧
    ∀ t' : Transactions N M, t'.bounds = [] → t'.pop_transaction = .empty := by
  constructor
  · obtain ⟨hr, hlen⟩ := runBuild_repr calls ⟨[], []⟩ t [] ⟨rfl, rfl⟩ (by simp) h
    exact popAll_of_groupRepr hr hlen
  · intro t' h'
    exact pop_transaction_of_bounds_nil h'

/-- Witness for C1 at a concrete five-call sequence (capacities 4 and 3):
two transactions come back exactly as pushed, and the empty engine pops
nothing. -/
theorem claim_C1_engine_fifo_witness :
    popAll (⟨[.Write [1], .Write [2], .Read [0]], [2, 1]⟩ : Transactions 4 3) =
      specGroups [.newT, .push (.Write [1]), .push (.Write [2]), .newT, .push (.Read [0])] ∧
    (⟨[], []⟩ : Transactions 4 3).pop_transaction = .empty :=
  ⟨(claim_C1_engine_fifo
      [.newT, .push (.Write [1]), .push (.Write [2]), .newT, .push (.Read [0])]
      ⟨[.Write [1], .Write [2], .Read [0]], [2, 1]⟩ (by decide)).1,
   (claim_C1_engine_fifo [] ⟨[], []⟩ (by decide)).2 ⟨[], []⟩ rfl⟩

/-- C7: after any sequence of engine calls, whether each succeeds or fails,
the boundary lengths sum to the flat buffer's length and the number of
boundary entries equals the number of pending transactions; a failing
`push_operation` or `new_transaction` leaves the engine unchanged; and
popping removes exactly one whole boundary's worth of leading operations. -/
theorem claim_C7_engine_invariants {N M : Nat} (calls : List EngineCall)
    (t : Transactions N M) (h : runEngineAny calls ⟨[], []⟩ = some t) :
    t.bounds.sum = t.buffer.length ∧
    (popAll t).length = t.bounds.length ∧
    (∀ (op : ControlRegisterOperation) (e : TransactionError) (t' : Transactions N M),
      t.push_operation op = .err e t' → t' = t ∧ e = .OperationsOutOfMemory) ∧
    (∀ (e : TransactionError) (t' : Transactions N M),
      t.new_transaction = .err e t' → t' = t ∧ e = .TransactionOutOfMemory) ∧
    (∀ (ops : List ControlRegisterOperation) (t' : Transactions N M),
      t.pop_transaction = .popped ops t' →
        t.buffer = ops ++ t'.buffer ∧ t.bounds = ops.length :: t'.bounds) := by
  have hi : EngineInv t :=
    runEngineAny_inv calls ⟨[], []⟩ t ⟨rfl, by simp, by simp⟩ h
  refine ⟨hi.1, ?_, ?_, ?_, ?_⟩
  · unfold popAll
    exact popAllGo_length_of_inv _ t hi rfl
  · intro op e t' hp
    exact push_operation_err hp
  · intro e t' hp
    exact new_transaction_err hp
  · intro ops t' hp
    exact pop_transaction_popped hp

/-- Witness for C7: a run with a failed push (capacity 1) and a run with a
failed transaction open (capacity 1), with the failure conjuncts instantiated
at concrete inputs. -/
theorem claim_C7_engine_invariants_witness :
    (⟨[.Write [5]], [1]⟩ : Transactions 1 2).bounds.sum =
      (⟨[.Write [5]], [1]⟩ : Transactions 1 2).buffer.length ∧
    (popAll (⟨[.Write [5]], [1]⟩ : Transactions 1 2)).length =
      (⟨[.Write [5]], [1]⟩ : Transactions 1 2).bounds.length ∧
    (⟨[.Write [5]], [1]⟩ : Transactions 1 2) = ⟨[.Write [5]], [1]⟩ ∧
    (⟨[], [0]⟩ : Transactions 1 1) = ⟨[], [0]⟩ ∧
    ((⟨[], [0]⟩ : Transactions 1 1).buffer = [] ++ ([] : List ControlRegisterOperation) ∧
      (⟨[], [0]⟩ : Transactions 1 1).bounds = List.length ([] : List ControlRegisterOperation) :: []) :=
  ⟨(claim_C7_engine_invariants [.newT, .push (.Write [5]), .push (.Write [6])]
      ⟨[.Write [5]], [1]⟩ (by decide)).1,
   (claim_C7_engine_invariants [.newT, .push (.Write [5]), .push (.Write [6])]
      ⟨[.Write [5]], [1]⟩ (by decide)).2.1,
   ((claim_C7_engine_invariants [.newT, .push (.Write [5]), .push (.Write [6])]
      ⟨[.Write [5]], [1]⟩ (by decide)).2.2.1 (.Read [0]) .OperationsOutOfMemory
      ⟨[.Write [5]], [1]⟩ (by decide)).1,
   ((claim_C7_engine_invariants [.newT, .newT] ⟨[], [0]⟩ (by decide)).2.2.2.1
      .TransactionOutOfMemory ⟨[], [0]⟩ (by decide)).1,
   (claim_C7_engine_invariants [.newT, .newT] ⟨[], [0]⟩ (by decide)).2.2.2.2
      [] ⟨[], []⟩ (by decide)⟩

/-! ### Lemmas about the driver methods -/

theorem andThen_err {N M : Nat} (d : Enc28j60 N M) (e : TransactionError)
    (f : Enc28j60 N M → StepResult N M) :
    andThen (some (d, some e)) f = some (d, some e) := rfl

theorem andThen_ok {N M : Nat} (d : Enc28j60 N M) (f : Enc28j60 N M → StepResult N M) :
    andThen (some (d, none)) f = f d := rfl

theorem andThen_none {N M : Nat} (f : Enc28j60 N M → StepResult N M) :
    andThen (none : StepResult N M) f = none := rfl

theorem engineStep_newT {N M : Nat} (d : Enc28j60 N M) :
    (d.engineStep fun t => t.new_transaction) =
      if d.pending_transactions.bounds.length = M then
        some (d, some .TransactionOutOfMemory)
      else
        some ({ d with pending_transactions :=
          ⟨d.pending_transactions.buffer, d.pending_transactions.bounds ++ [0]⟩ }, none) := by
  unfold Enc28j60.engineStep Transactions.new_transaction
  by_cases hm : d.pending_transactions.bounds.length = M <;> simp [hm]

theorem engineStep_push {N M : Nat} (d : Enc28j60 N M) (op : ControlRegisterOperation) :
    (d.engineStep fun t => t.push_operation op) =
      if d.pending_transactions.buffer.length = N then
        some (d, some .OperationsOutOfMemory)
      else if d.pending_transactions.bounds = [] then
        (if M = 0 then none
         else some ({ d with pending_transactions :=
           ⟨d.pending_transactions.buffer ++ [op], [1]⟩ }, none))
      else some ({ d with pending_transactions :=
        ⟨d.pending_transactions.buffer ++ [op],
         incLast d.pending_transactions.bounds⟩ }, none) := by
  unfold Enc28j60.engineStep Transactions.push_operation
  by_cases hn : d.pending_transactions.buffer.length = N
  · simp [hn]
  · by_cases hb : d.pending_transactions.bounds = []
    · by_cases hm : M = 0 <;> simp [hn, hb, hm]
    · simp [hn, hb]

theorem write_to_cra_eq {N M : Nat} (d : Enc28j60 N M) (a : RegisterAddress) (v : Nat) :
    d.write_to_control_register_address a v =
      if d.pending_transactions.bounds.length = M then
        some (d, some .TransactionOutOfMemory)
      else if d.pending_transactions.buffer.length = N then
        some ({ d with pending_transactions :=
          ⟨d.pending_transactions.buffer, d.pending_transactions.bounds ++ [0]⟩ },
          some .OperationsOutOfMemory)
      else
        some ({ d with pending_transactions :=
          ⟨d.pending_transactions.buffer ++ [.Write [OpCode.WCR ||| a.val, v]],
           d.pending_transactions.bounds ++ [1]⟩ }, none) := by
  unfold Enc28j60.write_to_control_register_address
  rw [engineStep_newT]
  by_cases hm : d.pending_transactions.bounds.length = M
  · rw [if_pos hm, if_pos hm, andThen_err]
  · rw [if_neg hm, if_neg hm, andThen_ok, engineStep_push]
    by_cases hn : d.pending_transactions.buffer.length = N
    · simp [hn]
    · have hne : d.pending_transactions.bounds ++ [0] ≠ [] := by simp
      simp [hn, hne, incLast_append_single]

theorem bit_field_set_eq {N M : Nat} (d : Enc28j60 N M) (a : RegisterAddress) (v : Nat) :
    d.bit_field_set_to_control_register_address a v =
      if d.pending_transactions.bounds.length = M then
        some (d, some .TransactionOutOfMemory)
      else if d.pending_transactions.buffer.length = N then
        some ({ d with pending_transactions :=
          ⟨d.pending_transactions.buffer, d.pending_transactions.bounds ++ [0]⟩ },
          some .OperationsOutOfMemory)
      else
        some ({ d with pending_transactions :=
          ⟨d.pending_transactions.buffer ++ [.Write [OpCode.BFS ||| a.val, v]],
           d.pending_transactions.bounds ++ [1]⟩ }, none) := by
  unfold Enc28j60.bit_field_set_to_control_register_address
  rw [engineStep_newT]
  by_cases hm : d.pending_transactions.bounds.length = M
  · rw [if_pos hm, if_pos hm, andThen_err]
  · rw [if_neg hm, if_neg hm, andThen_ok, engineStep_push]
    by_cases hn : d.pending_transactions.buffer.length = N
    · simp [hn]
    · have hne : d.pending_transactions.bounds ++ [0] ≠ [] := by simp
      simp [hn, hne, incLast_append_single]

theorem set_bank_eq {N M : Nat} (d : Enc28j60 N M) (bank : Bank) :
    d.set_bank bank =
      if bank = d.current_bank then some (d, none)
      else if d.pending_transactions.bounds.length = M then
        some (d, some .TransactionOutOfMemory)
      else if d.pending_transactions.buffer.length = N then
        some ({ d with pending_transactions :=
          ⟨d.pending_transactions.buffer, d.pending_transactions.bounds ++ [0]⟩ },
          some .OperationsOutOfMemory)
      else
        some ({ d with
          current_bank := bank,
          pending_transactions :=
            ⟨d.pending_transactions.buffer ++ [.Write [OpCode.BFS ||| ECON.val, bank.toU8]],
             d.pending_transactions.bounds ++ [1]⟩ }, none) := by
  unfold Enc28j60.set_bank
  by_cases hbk : bank = d.current_bank
  · rw [if_pos hbk, if_pos hbk]
  · rw [if_neg hbk, if_neg hbk, bit_field_set_eq]
    by_cases hm : d.pending_transactions.bounds.length = M
    · rw [if_pos hm, if_pos hm, andThen_err]
    · rw [if_neg hm, if_neg hm]
      by_cases hn : d.pending_transactions.buffer.length = N
      · rw [if_pos hn, if_pos hn, andThen_err]
      · rw [if_neg hn, if_neg hn, andThen_ok]

theorem write_register_ok {N M : Nat} {d d' : Enc28j60 N M} {r : ControlRegister} {v : Nat}
    (h : d.write_register r v = some (d', none)) :
    (r.bank = d.current_bank ∧ d'.current_bank = d.current_bank ∧
      d'.pending_transactions.buffer = d.pending_transactions.buffer ++
        [.Write [OpCode.WCR ||| r.address.val, v]] ∧
      d'.pending_transactions.bounds = d.pending_transactions.bounds ++ [1] ∧
      d'.erx_range = d.erx_range ∧ d'.ready = d.ready) ∨
    (r.bank ≠ d.current_bank ∧ d'.current_bank = r.bank ∧
      d'.pending_transactions.buffer = d.pending_transactions.buffer ++
        [.Write [OpCode.BFS ||| ECON.val, r.bank.toU8],
         .Write [OpCode.WCR ||| r.address.val, v]] ∧
      d'.pending_transactions.bounds = d.pending_transactions.bounds ++ [1, 1] ∧
      d'.erx_range = d.erx_range ∧ d'.ready = d.ready) := by
  unfold Enc28j60.write_register at h
  rw [set_bank_eq] at h
  by_cases hbk : r.bank = d.current_bank
  · rw [if_pos hbk, andThen_ok, write_to_cra_eq] at h
    split_ifs at h with h1 h2
    · exact absurd h (by simp)
    · exact absurd h (by simp)
    · simp only [Option.some.injEq, Prod.mk.injEq] at h
      obtain ⟨hd, -⟩ := h
      subst hd
      exact .inl ⟨hbk, rfl, rfl, rfl, rfl, rfl⟩
  · rw [if_neg hbk] at h
    split_ifs at h with hm hn
    · rw [andThen_err] at h
      exact absurd h (by simp)
    · rw [andThen_err] at h
      exact absurd h (by simp)
    · rw [andThen_ok, write_to_cra_eq] at h
      split_ifs at h with h3 h4
      · exact absurd h (by simp)
      · exact absurd h (by simp)
      · simp only [Option.some.injEq, Prod.mk.injEq] at h
        obtain ⟨hd, -⟩ := h
        subst hd
        refine .inr ⟨hbk, rfl, ?_, ?_, rfl, rfl⟩
        · simp
        · simp

theorem read_register_ok {N M : Nat} {d d' : Enc28j60 N M} {r : ControlRegister}
    (h : d.read_register r = some (d', none)) :
    (r.bank = d.current_bank ∧ d'.current_bank = d.current_bank ∧
      d'.pending_transactions.buffer = d.pending_transactions.buffer ++
        [.Write [OpCode.RCR ||| r.address.val], .Read [0]] ∧
      d'.pending_transactions.bounds = d.pending_transactions.bounds ++ [2] ∧
      d'.erx_range = d.erx_range ∧ d'.ready = d.ready) ∨
    (r.bank ≠ d.current_bank ∧ d'.current_bank = r.bank ∧
      d'.pending_transactions.buffer = d.pending_transactions.buffer ++
        [.Write [OpCode.BFS ||| ECON.val, r.bank.toU8],
         .Write [OpCode.RCR ||| r.address.val], .Read [0]] ∧
      d'.pending_transactions.bounds = d.pending_transactions.bounds ++ [1, 2] ∧
      d'.erx_range = d.erx_range ∧ d'.ready = d.ready) := by
  unfold Enc28j60.read_register at h
  rw [set_bank_eq] at h
  by_cases hbk : r.bank = d.current_bank
  · rw [if_pos hbk, andThen_ok, engineStep_newT] at h
    split_ifs at h with h1
    · rw [andThen_err] at h
      exact absurd h (by simp)
    · rw [andThen_ok, engineStep_push] at h
      split_ifs at h with h2 h3 h4
      · rw [andThen_err] at h
        exact absurd h (by simp)
      · exact absurd h3 (by simp)
      · exact absurd h3 (by simp)
      · rw [andThen_ok, engineStep_push] at h
        split_ifs at h with h5 h6
        · exact absurd h (by simp)
        · exact absurd h6 (by simp [incLast_append_single])
        · simp only [Option.some.injEq, Prod.mk.injEq] at h
          obtain ⟨hd, -⟩ := h
          subst hd
          refine .inl ⟨hbk, rfl, ?_, ?_, rfl, rfl⟩
          · simp
          · simp [incLast_append_single]
  · rw [if_neg hbk] at h
    split_ifs at h with hm hn
    · rw [andThen_err] at h
      exact absurd h (by simp)
    · rw [andThen_err] at h
      exact absurd h (by simp)
    · rw [andThen_ok, engineStep_newT] at h
      split_ifs at h with h1
      · rw [andThen_err] at h
        exact absurd h (by simp)
      · rw [andThen_ok, engineStep_push] at h
        split_ifs at h with h2 h3 h4
        · rw [andThen_err] at h
          exact absurd h (by simp)
        · exact absurd h3 (by simp)
        · exact absurd h3 (by simp)
        · rw [andThen_ok, engineStep_push] at h
          split_ifs at h with h5 h6
          · exact absurd h (by simp)
          · exact absurd h6 (by simp [incLast_eq_nil_iff])
          · simp only [Option.some.injEq, Prod.mk.injEq] at h
            obtain ⟨hd, -⟩ := h
            subst hd
            refine .inr ⟨hbk, rfl, ?_, ?_, rfl, rfl⟩
            · simp
            · simp [incLast_append, incLast]

/-- C6: for every register read or write issued through the driver, a target
bank equal to the cached `current_bank` enqueues no bank-switch operation;
otherwise exactly one bit-field-set operation `[BFS | ECON, bank bits]` (in
its own transaction, never a full write) is enqueued and the cache is updated
to the new bank as soon as the switch is enqueued.  In particular, after a
successful access `current_bank` equals the target bank, so a second access
to the same bank enqueues no further switch. -/
theorem claim_C6_bank_elision {N M : Nat} :
    (∀ (d : Enc28j60 N M) (b : Bank), b = d.current_bank → d.set_bank b = some (d, none)) ∧
    (∀ (d d' : Enc28j60 N M) (b : Bank), b ≠ d.current_bank →
      d.set_bank b = some (d', none) →
      d'.pending_transactions.buffer = d.pending_transactions.buffer ++
        [.Write [OpCode.BFS ||| ECON.val, b.toU8]] ∧
      d'.pending_transactions.bounds = d.pending_transactions.bounds ++ [1] ∧
      d'.current_bank = b) ∧
    (∀ (d d' : Enc28j60 N M) (r : ControlRegister) (v : Nat), r.bank = d.current_bank →
      d.write_register r v = some (d', none) →
      d'.pending_transactions.buffer = d.pending_transactions.buffer ++
        [.Write [OpCode.WCR ||| r.address.val, v]] ∧
      d'.current_bank = d.current_bank) ∧
    (∀ (d d' : Enc28j60 N M) (r : ControlRegister) (v : Nat), r.bank ≠ d.current_bank →
      d.write_register r v = some (d', none) →
      d'.pending_transactions.buffer = d.pending_transactions.buffer ++
        [.Write [OpCode.BFS ||| ECON.val, r.bank.toU8],
         .Write [OpCode.WCR ||| r.address.val, v]] ∧
      d'.current_bank = r.bank) ∧
    (∀ (d d' : Enc28j60 N M) (r : ControlRegister), r.bank = d.current_bank →
      d.read_register r = some (d', none) →
      d'.pending_transactions.buffer = d.pending_transactions.buffer ++
        [.Write [OpCode.RCR ||| r.address.val], .Read [0]] ∧
      d'.current_bank = d.current_bank) ∧
    (∀ (d d' : Enc28j60 N M) (r : ControlRegister), r.bank ≠ d.current_bank →
      d.read_register r = some (d', none) →
      d'.pending_transactions.buffer = d.pending_transactions.buffer ++
        [.Write [OpCode.BFS ||| ECON.val, r.bank.toU8],
         .Write [OpCode.RCR ||| r.address.val], .Read [0]] ∧
      d'.current_bank = r.bank) := by
  refine ⟨?_, ?_, ?_, ?_, ?_, ?_⟩
  · intro d b h
    rw [set_bank_eq, if_pos h]
  · intro d d' b hne h
    rw [set_bank_eq, if_neg hne] at h
    split_ifs at h with hm hn
    · exact absurd h (by simp)
    · exact absurd h (by simp)
    · simp only [Option.some.injEq, Prod.mk.injEq] at h
      obtain ⟨hd, -⟩ := h
      subst hd
      exact ⟨rfl, rfl, rfl⟩
  · intro d d' r v hb h
    rcases write_register_ok h with ⟨-, h1, h2, -, -, -⟩ | ⟨hne, -, -, -, -, -⟩
    · exact ⟨h2, h1⟩
    · exact absurd hb hne
  · intro d d' r v hb h
    rcases write_register_ok h with ⟨heq, -, -, -, -, -⟩ | ⟨-, h1, h2, -, -, -⟩
    · exact absurd heq hb
    · exact ⟨h2, h1⟩
  · intro d d' r hb h
    rcases read_register_ok h with ⟨-, h1, h2, -, -, -⟩ | ⟨hne, -, -, -, -, -⟩
    · exact ⟨h2, h1⟩
    · exact absurd hb hne
  · intro d d' r hb h
    rcases read_register_ok h with ⟨heq, -, -, -, -, -⟩ | ⟨-, h1, h2, -, -, -⟩
    · exact absurd heq hb
    · exact ⟨h2, h1⟩

/-- Witness for C6: concrete same-bank and cross-bank accesses on a fresh
driver (bank cache `Bank0`, capacities 50/10). -/
theorem claim_C6_bank_elision_witness :
    ((Enc28j60.with_erx_range 0 496 : Enc28j60 50 10).set_bank .Bank0 =
      some (Enc28j60.with_erx_range 0 496, none)) ∧
    ((⟨.Bank1, ⟨[.Write [0x9F, 0x01]], [1]⟩, (0, 496), false⟩ :
        Enc28j60 50 10).pending_transactions.buffer =
      (Enc28j60.with_erx_range 0 496 :
        Enc28j60 50 10).pending_transactions.buffer ++
        [.Write [OpCode.BFS ||| ECON.val, Bank.Bank1.toU8]]) ∧
    ((⟨.Bank0, ⟨[.Write [0x42, 0x07]], [1]⟩, (0, 496), false⟩ :
        Enc28j60 50 10).pending_transactions.buffer =
      (Enc28j60.with_erx_range 0 496 :
        Enc28j60 50 10).pending_transactions.buffer ++
        [.Write [OpCode.WCR ||| (MACON3.address).val, 0x07]]) ∧
    ((⟨.Bank1, ⟨[.Write [0x9F, 0x01], .Write [0x42, 0x07]], [1, 1]⟩, (0, 496), false⟩ :
        Enc28j60 50 10).pending_transactions.buffer =
      (Enc28j60.with_erx_range 0 496 :
        Enc28j60 50 10).pending_transactions.buffer ++
        [.Write [OpCode.BFS ||| ECON.val, Bank.Bank1.toU8],
         .Write [OpCode.WCR ||| (MACON3.address).val, 0x07]]) ∧
    ((⟨.Bank0, ⟨[.Write [0x02], .Read [0]], [2]⟩, (0, 496), false⟩ :
        Enc28j60 50 10).pending_transactions.buffer =
      (Enc28j60.with_erx_range 0 496 :
        Enc28j60 50 10).pending_transactions.buffer ++
        [.Write [OpCode.RCR ||| (MACON3.address).val], .Read [0]]) ∧
    ((⟨.Bank1, ⟨[.Write [0x9F, 0x01], .Write [0x02], .Read [0]], [1, 2]⟩, (0, 496), false⟩ :
        Enc28j60 50 10).pending_transactions.buffer =
      (Enc28j60.with_erx_range 0 496 :
        Enc28j60 50 10).pending_transactions.buffer ++
        [.Write [OpCode.BFS ||| ECON.val, Bank.Bank1.toU8],
         .Write [OpCode.RCR ||| (MACON3.address).val], .Read [0]]) :=
  ⟨claim_C6_bank_elision.1 (Enc28j60.with_erx_range 0 496) .Bank0 rfl,
   (claim_C6_bank_elision.2.1 (Enc28j60.with_erx_range 0 496)
      ⟨.Bank1, ⟨[.Write [0x9F, 0x01]], [1]⟩, (0, 496), false⟩ .Bank1
      (by decide) (by decide)).1,
   (claim_C6_bank_elision.2.2.1 (Enc28j60.with_erx_range 0 496)
      ⟨.Bank0, ⟨[.Write [0x42, 0x07]], [1]⟩, (0, 496), false⟩
      ⟨.Bank0, MACON3.address⟩ 0x07 rfl (by decide)).1,
   (claim_C6_bank_elision.2.2.2.1 (Enc28j60.with_erx_range 0 496)
      ⟨.Bank1, ⟨[.Write [0x9F, 0x01], .Write [0x42, 0x07]], [1, 1]⟩, (0, 496), false⟩
      ⟨.Bank1, MACON3.address⟩ 0x07 (by decide) (by decide)).1,
   (claim_C6_bank_elision.2.2.2.2.1 (Enc28j60.with_erx_range 0 496)
      ⟨.Bank0, ⟨[.Write [0x02], .Read [0]], [2]⟩, (0, 496), false⟩
      ⟨.Bank0, MACON3.address⟩ rfl (by decide)).1,
   (claim_C6_bank_elision.2.2.2.2.2 (Enc28j60.with_erx_range 0 496)
      ⟨.Bank1, ⟨[.Write [0x9F, 0x01], .Write [0x02], .Read [0]], [1, 2]⟩, (0, 496), false⟩
      ⟨.Bank1, MACON3.address⟩ (by decide) (by decide)).1⟩

/-- C2 (code evaluation at the failing input): from a fresh driver whose
cached bank already matches, writing the 16-bit value `0x1F0` to the register
at address `0x08` enqueues `[WCR|0x08, 0x01]` and then `[WCR|0x09, 0xF0]`:
the variable the source names `low` receives the most significant byte of
`to_be_bytes`, so the driver sends the high byte to the low register — not
the claimed `[WCR|0x08, 0xF0]` then `[WCR|0x09, 0x01]`. -/
theorem claim_C2_write_word_byte_swap :
    (Enc28j60.write_word (Enc28j60.with_erx_range 0 496 : Enc28j60 50 10)
        ⟨.Bank0, 0x08⟩ 0x1F0) =
      some ({ current_bank := .Bank0,
              pending_transactions :=
                ⟨[.Write [0x48, 0x01], .Write [0x49, 0xF0]], [1, 1]⟩,
              erx_range := (0, 496),
              ready := false }, none) ∧
    (Enc28j60.write_word (Enc28j60.with_erx_range 0 496 : Enc28j60 50 10)
        ⟨.Bank0, 0x08⟩ 0x1F0).map (fun p => p.1.pending_transactions.buffer) ≠
      some [.Write [0x48, 0xF0], .Write [0x49, 0x01]] :=
  ⟨by decide, by decide⟩

/-- C3 counterexample: on a fresh driver with receive range `0..=0x1F0`,
`init` enqueues 14 single-operation transactions when the boundary queue is
large enough (capacities 50/20), and with the source's default capacities
(50/10) it stops with `TransactionOutOfMemory` after enqueuing 10 — in no
case exactly 7. -/
theorem claim_C3_init_not_seven :
    ((Enc28j60.with_erx_range 0 0x1F0 : Enc28j60 50 20).init).map
        (fun p => (p.1.pending_transactions.bounds.length, p.2)) = some (14, none) ∧
    ((Enc28j60.with_erx_range 0 0x1F0 : Enc28j60 50 10).init).map
        (fun p => (p.1.pending_transactions.bounds.length, p.2)) =
      some (10, some .TransactionOutOfMemory) ∧
    (14 ≠ 7) :=
  ⟨by decide, by decide, by decide⟩

/-- C3 amended: with ample capacities (50/20), `init` on a fresh driver with
receive range `0..=0x1F0` enqueues exactly 14 transactions of one operation
each, in order: the three word registers as six single-byte writes (each word
sending `value / 256` first, per the C2 byte-order slip), a bank switch to
bank 1, the receive-filter write, a bank switch to bank 2, the MACON1 write,
and the MACON3/MACON4 word writes as four single-byte writes. -/
theorem claim_C3_init_sequence :
    (Enc28j60.with_erx_range 0 0x1F0 : Enc28j60 50 20).init =
      some ({ current_bank := .Bank2,
              pending_transactions :=
                ⟨[.Write [0x48, 0x00], .Write [0x49, 0x00],
                  .Write [0x4A, 0x01], .Write [0x4B, 0xF0],
                  .Write [0x4C, 0x00], .Write [0x4D, 0x00],
                  .Write [0x9F, 0x01], .Write [0x58, 0x00],
                  .Write [0x9F, 0x02], .Write [0x40, 0x0D],
                  .Write [0x42, 0x00], .Write [0x43, 0xF7],
                  .Write [0x43, 0x00], .Write [0x44, 0x00]],
                 [1, 1, 1, 1, 1, 1, 1, 1, 1, 1, 1, 1, 1, 1]⟩,
              erx_range := (0, 0x1F0),
              ready := false }, none) := by
  decide

/-- C5: `handle_transaction` aborts exactly when the transaction's first
operation is a write carrying the `RCR | ESTAT` instruction byte that is not
immediately followed by a read operation with a non-empty buffer (the
matching probe read); every transaction whose first operation is not such a
probing write — ordinary register writes, read results, and the empty
transaction — is accepted and discarded with no change to driver state. -/
theorem claim_C5_handle_abort_iff {N M : Nat} :
    (∀ (d : Enc28j60 N M) (tx : List ControlRegisterOperation),
      d.handle_transaction tx = none ↔
        (firstIsProbeWrite tx = true ∧ hasMatchingRead tx = false)) ∧
    (∀ (d : Enc28j60 N M) (tx : List ControlRegisterOperation),
      firstIsProbeWrite tx = false → d.handle_transaction tx = some d) := by
  constructor
  · intro d tx
    cases tx with
    | nil => simp [Enc28j60.handle_transaction, firstIsProbeWrite]
    | cons op1 rest =>
      cases op1 with
      | Read b =>
        simp [Enc28j60.handle_transaction, firstIsProbeWrite]
      | Write b =>
        by_cases hc : OpCode.RCR ||| ESTAT.val ∈ b
        · cases rest with
          | nil =>
            simp [Enc28j60.handle_transaction, firstIsProbeWrite, hasMatchingRead, hc]
          | cons op2 rest2 =>
            cases op2 with
            | Write b2 =>
              simp [Enc28j60.handle_transaction, firstIsProbeWrite, hasMatchingRead, hc]
            | Read buf =>
              cases buf with
              | nil =>
                simp [Enc28j60.handle_transaction, firstIsProbeWrite, hasMatchingRead, hc]
              | cons b0 bs =>
                by_cases hb0 : b0 % 2 = 1 <;>
                  simp [Enc28j60.handle_transaction, firstIsProbeWrite,
                    hasMatchingRead, hc, hb0, Nat.and_one_is_mod]
        · simp [Enc28j60.handle_transaction, firstIsProbeWrite, hc]
  · intro d tx hf
    cases tx with
    | nil => rfl
    | cons op1 rest =>
      cases op1 with
      | Read b => rfl
      | Write b =>
        have hc : OpCode.RCR ||| ESTAT.val ∉ b := by
          simpa [firstIsProbeWrite] using hf
        simp [Enc28j60.handle_transaction, hc]

/-! ### Driver call-sequence lemmas -/

theorem map_fst_eq_some {α β : Type _} {r : Option (α × β)} {a : α}
    (h : r.map Prod.fst = some a) : ∃ b, r = some (a, b) := by
  cases r with
  | none => cases h
  | some p =>
    simp only [Option.map_some'] at h
    injection h with h
    exact ⟨p.2, by rw [← h]⟩

theorem map_snd_eq_some {α β : Type _} {r : Option (α × β)} {b : β}
    (h : r.map Prod.snd = some b) : ∃ a, r = some (a, b) := by
  cases r with
  | none => cases h
  | some p =>
    simp only [Option.map_some'] at h
    injection h with h
    exact ⟨p.1, by rw [← h]⟩

theorem stepExtends_refl {N M : Nat} (d : Enc28j60 N M) : StepExtends d d :=
  ⟨rfl, [], by simp, by simp⟩

theorem stepExtends_trans {N M : Nat} {d d1 d2 : Enc28j60 N M}
    (h1 : StepExtends d d1) (h2 : StepExtends d1 d2) : StepExtends d d2 := by
  obtain ⟨hr1, L1, hb1, hl1⟩ := h1
  obtain ⟨hr2, L2, hb2, hl2⟩ := h2
  refine ⟨hr2.trans hr1, L1 ++ L2, ?_, ?_⟩
  · rw [hb2, hb1, List.append_assoc]
  · intro op hop
    rcases List.mem_append.mp hop with hm | hm
    · exact hl1 op hm
    · exact hl2 op hm

theorem stepExtends_buf2 {N M : Nat} {d d' : Enc28j60 N M}
    (h : StepExtends d d') (hb : BufOps2 d) : BufOps2 d' := by
  obtain ⟨-, L, hbuf, hl⟩ := h
  intro op hop
  rw [hbuf] at hop
  rcases List.mem_append.mp hop with hm | hm
  · exact hb op hm
  · exact hl op hm

theorem andThen_extends {N M : Nat} {d d' : Enc28j60 N M} {e : Option TransactionError}
    {r : StepResult N M} {f : Enc28j60 N M → StepResult N M}
    (hr : ∀ d1 e1, r = some (d1, e1) → StepExtends d d1)
    (hf : ∀ d1 d2 e2, f d1 = some (d2, e2) → StepExtends d1 d2)
    (h : andThen r f = some (d', e)) : StepExtends d d' := by
  rcases hrr : r with - | ⟨d1, e1⟩
  · rw [hrr, andThen_none] at h
    cases h
  · rcases e1 with - | e1
    · rw [hrr, andThen_ok] at h
      exact stepExtends_trans (hr d1 none hrr) (hf d1 d' e h)
    · rw [hrr, andThen_err] at h
      simp only [Option.some.injEq, Prod.mk.injEq] at h
      obtain ⟨h1, -⟩ := h
      subst h1
      exact hr d1 (some e1) hrr

theorem write_to_cra_extends {N M : Nat} {d d' : Enc28j60 N M} {e : Option TransactionError}
    {a : RegisterAddress} {v : Nat}
    (h : d.write_to_control_register_address a v = some (d', e)) : StepExtends d d' := by
  rw [write_to_cra_eq] at h
  split_ifs at h with hm hn
  all_goals
    simp only [Option.some.injEq, Prod.mk.injEq] at h
    obtain ⟨h1, -⟩ := h
    subst h1
  · exact stepExtends_refl d
  · exact ⟨rfl, [], by simp, by simp⟩
  · exact ⟨rfl, [.Write [OpCode.WCR ||| a.val, v]], rfl,
      by simp [ControlRegisterOperation.opLen]⟩

theorem bit_field_set_extends {N M : Nat} {d d' : Enc28j60 N M} {e : Option TransactionError}
    {a : RegisterAddress} {v : Nat}
    (h : d.bit_field_set_to_control_register_address a v = some (d', e)) :
    StepExtends d d' := by
  rw [bit_field_set_eq] at h
  split_ifs at h with hm hn
  all_goals
    simp only [Option.some.injEq, Prod.mk.injEq] at h
    obtain ⟨h1, -⟩ := h
    subst h1
  · exact stepExtends_refl d
  · exact ⟨rfl, [], by simp, by simp⟩
  · exact ⟨rfl, [.Write [OpCode.BFS ||| a.val, v]], rfl,
      by simp [ControlRegisterOperation.opLen]⟩

theorem set_bank_extends {N M : Nat} {d d' : Enc28j60 N M} {e : Option TransactionError}
    {b : Bank} (h : d.set_bank b = some (d', e)) : StepExtends d d' := by
  rw [set_bank_eq] at h
  split_ifs at h with h1 h2 h3
  all_goals
    simp only [Option.some.injEq, Prod.mk.injEq] at h
    obtain ⟨hd, -⟩ := h
    subst hd
  · exact stepExtends_refl d
  · exact stepExtends_refl d
  · exact ⟨rfl, [], by simp, by simp⟩
  · exact ⟨rfl, [.Write [OpCode.BFS ||| ECON.val, b.toU8]], rfl,
      by simp [ControlRegisterOperation.opLen]⟩

theorem engineStep_newT_extends {N M : Nat} {d d' : Enc28j60 N M} {e : Option TransactionError}
    (h : (d.engineStep fun t => t.new_transaction) = some (d', e)) : StepExtends d d' := by
  rw [engineStep_newT] at h
  split_ifs at h
  all_goals
    simp only [Option.some.injEq, Prod.mk.injEq] at h
    obtain ⟨hd, -⟩ := h
    subst hd
  · exact stepExtends_refl d
  · exact ⟨rfl, [], by simp, by simp⟩

theorem engineStep_push_extends {N M : Nat} {d d' : Enc28j60 N M} {e : Option TransactionError}
    {op : ControlRegisterOperation} (hop : op.opLen ≤ 2)
    (h : (d.engineStep fun t => t.push_operation op) = some (d', e)) : StepExtends d d' := by
  rw [engineStep_push] at h
  split_ifs at h with h1 h2 h3
  all_goals
    first
    | cases h
    | (simp only [Option.some.injEq, Prod.mk.injEq] at h
       obtain ⟨hd, -⟩ := h
       subst hd)
  all_goals
    first
    | exact stepExtends_refl d
    | exact ⟨rfl, [op], rfl, by simpa using hop⟩

theorem write_register_extends {N M : Nat} {d d' : Enc28j60 N M} {e : Option TransactionError}
    {r : ControlRegister} {v : Nat}
    (h : d.write_register r v = some (d', e)) : StepExtends d d' := by
  unfold Enc28j60.write_register at h
  exact andThen_extends (fun d1 e1 hh => set_bank_extends hh)
    (fun d1 d2 e2 hh => write_to_cra_extends hh) h

theorem write_word_extends {N M : Nat} {d d' : Enc28j60 N M} {e : Option TransactionError}
    {r : ControlRegister} {v : Nat}
    (h : d.write_word r v = some (d', e)) : StepExtends d d' := by
  unfold Enc28j60.write_word at h
  exact andThen_extends (fun d1 e1 hh => write_register_extends hh)
    (fun d1 d2 e2 hh => write_register_extends hh) h

theorem read_register_extends {N M : Nat} {d d' : Enc28j60 N M} {e : Option TransactionError}
    {r : ControlRegister}
    (h : d.read_register r = some (d', e)) : StepExtends d d' := by
  unfold Enc28j60.read_register at h
  refine andThen_extends (fun d1 e1 hh => set_bank_extends hh) ?_ h
  intro d1 d2 e2 hh
  refine andThen_extends (fun da ea hha => engineStep_newT_extends hha) ?_ hh
  intro da db eb hhb
  refine andThen_extends
    (fun dc ec hhc =>
      engineStep_push_extends (by simp [ControlRegisterOperation.opLen]) hhc) ?_ hhb
  intro dc dd ed hhd
  exact engineStep_push_extends (by simp [ControlRegisterOperation.opLen]) hhd

theorem init_extends {N M : Nat} {d d' : Enc28j60 N M} {e : Option TransactionError}
    (h : d.init = some (d', e)) : StepExtends d d' := by
  unfold Enc28j60.init at h
  refine andThen_extends (fun d1 e1 hh => write_word_extends hh) ?_ h
  intro d1 d2 e2 hh
  refine andThen_extends (fun da ea hha => write_word_extends hha) ?_ hh
  intro da db eb hhb
  refine andThen_extends (fun dc ec hhc => write_word_extends hhc) ?_ hhb
  intro dc dd ed hhd
  refine andThen_extends (fun de1 ee1 hhe => write_register_extends hhe) ?_ hhd
  intro de1 df ef hhf
  refine andThen_extends (fun dg eg hhg => write_register_extends hhg) ?_ hhf
  intro dg dh2 eh2 hhh
  refine andThen_extends (fun di ei hhi => write_word_extends hhi) ?_ hhh
  intro di dj ej hhj
  exact write_word_extends hhj

theorem handle_cases {N M : Nat} {d d' : Enc28j60 N M}
    {tx : List ControlRegisterOperation}
    (h : d.handle_transaction tx = some d') :
    d' = d ∨ d' = { d with ready := true } := by
  cases tx with
  | nil =>
    simp only [Enc28j60.handle_transaction] at h
    injection h with h
    exact .inl h.symm
  | cons op1 rest =>
    cases op1 with
    | Read b =>
      simp only [Enc28j60.handle_transaction] at h
      injection h with h
      exact .inl h.symm
    | Write b =>
      by_cases hc : OpCode.RCR ||| ESTAT.val ∈ b
      · cases rest with
        | nil => simp [Enc28j60.handle_transaction, hc] at h
        | cons op2 rest2 =>
          cases op2 with
          | Write b2 => simp [Enc28j60.handle_transaction, hc] at h
          | Read buf =>
            cases buf with
            | nil => simp [Enc28j60.handle_transaction, hc] at h
            | cons b0 bs =>
              by_cases hbit : b0 % 2 = 1
              · simp [Enc28j60.handle_transaction, hc, hbit, Nat.and_one_is_mod] at h
                exact .inr h.symm
              · simp [Enc28j60.handle_transaction, hc, hbit, Nat.and_one_is_mod] at h
                exact .inl h.symm
      · simp [Enc28j60.handle_transaction, hc] at h
        exact .inl h.symm

theorem poll_cases {N M : Nat} {d : Enc28j60 N M}
    {r : Option (List ControlRegisterOperation)} {d' : Enc28j60 N M}
    (h : d.poll_pending_transaction = some (r, d')) :
    d'.ready = d.ready ∧
    (∀ op ∈ d'.pending_transactions.buffer, op ∈ d.pending_transactions.buffer) ∧
    (d'.pending_transactions.bounds = d.pending_transactions.bounds ∨
      ∃ k, d.pending_transactions.bounds = k :: d'.pending_transactions.bounds) := by
  unfold Enc28j60.poll_pending_transaction at h
  by_cases hr : d.ready = false
  · rw [if_pos hr] at h
    split_ifs at h with h2
    simp only [Option.some.injEq, Prod.mk.injEq] at h
    obtain ⟨-, hd⟩ := h
    subst hd
    exact ⟨rfl, fun op hop => hop, .inl rfl⟩
  · rw [if_neg hr] at h
    cases hp : d.pending_transactions.pop_transaction with
    | empty =>
      rw [hp] at h
      simp only [Option.some.injEq, Prod.mk.injEq] at h
      obtain ⟨-, hd⟩ := h
      subst hd
      exact ⟨rfl, fun op hop => hop, .inl rfl⟩
    | popped ops t1 =>
      rw [hp] at h
      simp only [Option.some.injEq, Prod.mk.injEq] at h
      obtain ⟨-, hd⟩ := h
      subst hd
      obtain ⟨hbuf, hbnd⟩ := pop_transaction_popped hp
      refine ⟨rfl, ?_, .inr ⟨ops.length, hbnd⟩⟩
      intro op hop
      rw [hbuf]
      exact List.mem_append.mpr (.inr hop)
    | fatal =>
      rw [hp] at h
      cases h

theorem applyDriverAny_buf2 {N M : Nat} {d d' : Enc28j60 N M} {c : DriverCall}
    (h : applyDriverAny d c = some d') (hb : BufOps2 d) : BufOps2 d' := by
  cases c with
  | initC =>
    simp only [applyDriverAny] at h
    obtain ⟨e2, h2⟩ := map_fst_eq_some h
    exact stepExtends_buf2 (init_extends h2) hb
  | pollC =>
    simp only [applyDriverAny] at h
    obtain ⟨r2, h2⟩ := map_snd_eq_some h
    obtain ⟨-, hmem, -⟩ := poll_cases h2
    intro op hop
    exact hb op (hmem op hop)
  | handleC tx =>
    simp only [applyDriverAny] at h
    rcases handle_cases h with rfl | rfl
    · exact hb
    · exact hb
  | readRegC r =>
    simp only [applyDriverAny] at h
    obtain ⟨e2, h2⟩ := map_fst_eq_some h
    exact stepExtends_buf2 (read_register_extends h2) hb
  | writeRegC r v =>
    simp only [applyDriverAny] at h
    obtain ⟨e2, h2⟩ := map_fst_eq_some h
    exact stepExtends_buf2 (write_register_extends h2) hb
  | writeWordC r v =>
    simp only [applyDriverAny] at h
    obtain ⟨e2, h2⟩ := map_fst_eq_some h
    exact stepExtends_buf2 (write_word_extends h2) hb

theorem applyDriverAny_ready {N M : Nat} {d d' : Enc28j60 N M} {c : DriverCall}
    (h : applyDriverAny d c = some d') (hr : d.ready = true) : d'.ready = true := by
  cases c with
  | initC =>
    simp only [applyDriverAny] at h
    obtain ⟨e2, h2⟩ := map_fst_eq_some h
    rw [(init_extends h2).1, hr]
  | pollC =>
    simp only [applyDriverAny] at h
    obtain ⟨r2, h2⟩ := map_snd_eq_some h
    rw [(poll_cases h2).1, hr]
  | handleC tx =>
    simp only [applyDriverAny] at h
    rcases handle_cases h with rfl | rfl
    · exact hr
    · rfl
  | readRegC r =>
    simp only [applyDriverAny] at h
    obtain ⟨e2, h2⟩ := map_fst_eq_some h
    rw [(read_register_extends h2).1, hr]
  | writeRegC r v =>
    simp only [applyDriverAny] at h
    obtain ⟨e2, h2⟩ := map_fst_eq_some h
    rw [(write_register_extends h2).1, hr]
  | writeWordC r v =>
    simp only [applyDriverAny] at h
    obtain ⟨e2, h2⟩ := map_fst_eq_some h
    rw [(write_word_extends h2).1, hr]

theorem runDriverAny_buf2 {N M : Nat} :
    ∀ (calls : List DriverCall) (d d' : Enc28j60 N M),
      runDriverAny calls d = some d' → BufOps2 d → BufOps2 d' := by
  intro calls
  induction calls with
  | nil =>
    intro d d' h hb
    simp only [runDriverAny] at h
    cases h
    exact hb
  | cons c cs ih =>
    intro d d' h hb
    simp only [runDriverAny] at h
    cases hc : applyDriverAny d c with
    | none => rw [hc] at h; cases h
    | some d1 =>
      rw [hc] at h
      exact ih d1 d' h (applyDriverAny_buf2 hc hb)

theorem runDriverAny_ready {N M : Nat} :
    ∀ (calls : List DriverCall) (d d' : Enc28j60 N M),
      runDriverAny calls d = some d' → d.ready = true → d'.ready = true := by
  intro calls
  induction calls with
  | nil =>
    intro d d' h hr
    simp only [runDriverAny] at h
    cases h
    exact hr
  | cons c cs ih =>
    intro d d' h hr
    simp only [runDriverAny] at h
    cases hc : applyDriverAny d c with
    | none => rw [hc] at h; cases h
    | some d1 =>
      rw [hc] at h
      exact ih d1 d' h (applyDriverAny_ready hc hr)

theorem andThen_ok_inv {N M : Nat} {d' : Enc28j60 N M} {r : StepResult N M}
    {f : Enc28j60 N M → StepResult N M}
    (h : andThen r f = some (d', none)) :
    ∃ d1, r = some (d1, none) ∧ f d1 = some (d', none) := by
  rcases hrr : r with - | ⟨d1, e1⟩
  · rw [hrr, andThen_none] at h
    cases h
  · rcases e1 with - | e1
    · rw [hrr, andThen_ok] at h
      exact ⟨d1, rfl, h⟩
    · rw [hrr, andThen_err] at h
      simp at h

theorem set_bank_allpos {N M : Nat} {d d' : Enc28j60 N M} {b : Bank}
    (h : d.set_bank b = some (d', none)) (hp : AllPosB d) : AllPosB d' := by
  rw [set_bank_eq] at h
  split_ifs at h with h1 h2 h3
  · simp only [Option.some.injEq, Prod.mk.injEq] at h
    obtain ⟨hd, -⟩ := h
    subst hd
    exact hp
  · simp at h
  · simp at h
  · simp only [Option.some.injEq, Prod.mk.injEq] at h
    obtain ⟨hd, -⟩ := h
    subst hd
    intro x hx
    rcases List.mem_append.mp hx with hm | hm
    · exact hp x hm
    · simp at hm
      omega

theorem write_register_allpos {N M : Nat} {d d' : Enc28j60 N M} {r : ControlRegister}
    {v : Nat} (h : d.write_register r v = some (d', none)) (hp : AllPosB d) : AllPosB d' := by
  rcases write_register_ok h with ⟨-, -, -, hbnd, -, -⟩ | ⟨-, -, -, hbnd, -, -⟩ <;>
    · intro x hx
      rw [hbnd] at hx
      rcases List.mem_append.mp hx with hm | hm
      · exact hp x hm
      · simp at hm
        omega

theorem read_register_allpos {N M : Nat} {d d' : Enc28j60 N M} {r : ControlRegister}
    (h : d.read_register r = some (d', none)) (hp : AllPosB d) : AllPosB d' := by
  rcases read_register_ok h with ⟨-, -, -, hbnd, -, -⟩ | ⟨-, -, -, hbnd, -, -⟩ <;>
    · intro x hx
      rw [hbnd] at hx
      rcases List.mem_append.mp hx with hm | hm
      · exact hp x hm
      · simp at hm
        omega

theorem write_word_allpos {N M : Nat} {d d' : Enc28j60 N M} {r : ControlRegister}
    {v : Nat} (h : d.write_word r v = some (d', none)) (hp : AllPosB d) : AllPosB d' := by
  unfold Enc28j60.write_word at h
  obtain ⟨d1, h1, h2⟩ := andThen_ok_inv h
  exact write_register_allpos h2 (write_register_allpos h1 hp)

theorem init_allpos {N M : Nat} {d d' : Enc28j60 N M}
    (h : d.init = some (d', none)) (hp : AllPosB d) : AllPosB d' := by
  unfold Enc28j60.init at h
  obtain ⟨d1, h1, h⟩ := andThen_ok_inv h
  obtain ⟨d2, h2, h⟩ := andThen_ok_inv h
  obtain ⟨d3, h3, h⟩ := andThen_ok_inv h
  obtain ⟨d4, h4, h⟩ := andThen_ok_inv h
  obtain ⟨d5, h5, h⟩ := andThen_ok_inv h
  obtain ⟨d6, h6, h⟩ := andThen_ok_inv h
  exact write_word_allpos h
    (write_word_allpos h6
      (write_register_allpos h5
        (write_register_allpos h4
          (write_word_allpos h3
            (write_word_allpos h2 (write_word_allpos h1 hp))))))

theorem applyDriverOk_allpos {N M : Nat} {d d' : Enc28j60 N M} {c : DriverCall}
    (h : applyDriverOk d c = some d') (hp : AllPosB d) : AllPosB d' := by
  cases c with
  | initC =>
    simp only [applyDriverOk] at h
    cases hi : d.init with
    | none => rw [hi] at h; cases h
    | some p =>
      rw [hi] at h
      rcases p with ⟨d2, e2⟩
      cases e2 with
      | none =>
        injection h with h
        subst h
        exact init_allpos hi hp
      | some e2 => cases h
  | pollC =>
    simp only [applyDriverOk] at h
    obtain ⟨r2, h2⟩ := map_snd_eq_some h
    obtain ⟨-, -, hbnd⟩ := poll_cases h2
    rcases hbnd with heq | ⟨k, heq⟩
    · intro x hx
      rw [heq] at hx
      exact hp x hx
    · intro x hx
      refine hp x ?_
      rw [heq]
      exact List.mem_cons_of_mem k hx
  | handleC tx =>
    simp only [applyDriverOk] at h
    rcases handle_cases h with rfl | rfl
    · exact hp
    · exact hp
  | readRegC r =>
    simp only [applyDriverOk] at h
    cases hi : d.read_register r with
    | none => rw [hi] at h; cases h
    | some p =>
      rw [hi] at h
      rcases p with ⟨d2, e2⟩
      cases e2 with
      | none =>
        injection h with h
        subst h
        exact read_register_allpos hi hp
      | some e2 => cases h
  | writeRegC r v =>
    simp only [applyDriverOk] at h
    cases hi : d.write_register r v with
    | none => rw [hi] at h; cases h
    | some p =>
      rw [hi] at h
      rcases p with ⟨d2, e2⟩
      cases e2 with
      | none =>
        injection h with h
        subst h
        exact write_register_allpos hi hp
      | some e2 => cases h
  | writeWordC r v =>
    simp only [applyDriverOk] at h
    cases hi : d.write_word r v with
    | none => rw [hi] at h; cases h
    | some p =>
      rw [hi] at h
      rcases p with ⟨d2, e2⟩
      cases e2 with
      | none =>
        injection h with h
        subst h
        exact write_word_allpos hi hp
      | some e2 => cases h

theorem runDriverOk_allpos {N M : Nat} :
    ∀ (calls : List DriverCall) (d d' : Enc28j60 N M),
      runDriverOk calls d = some d' → AllPosB d → AllPosB d' := by
  intro calls
  induction calls with
  | nil =>
    intro d d' h hp
    simp only [runDriverOk] at h
    cases h
    exact hp
  | cons c cs ih =>
    intro d d' h hp
    simp only [runDriverOk] at h
    cases hc : applyDriverOk d c with
    | none => rw [hc] at h; cases h
    | some d1 =>
      rw [hc] at h
      exact ih d1 d' h (applyDriverOk_allpos hc hp)

theorem poll_not_ready {N M : Nat} (d : Enc28j60 N M) (hN : 2 ≤ N) (hr : d.ready = false) :
    d.poll_pending_transaction = some (some estatProbe, d) := by
  unfold Enc28j60.poll_pending_transaction
  rw [if_pos hr, if_pos hN]

theorem poll_not_ready_small {N M : Nat} (d : Enc28j60 N M) (hN : N < 2)
    (hr : d.ready = false) : d.poll_pending_transaction = none := by
  unfold Enc28j60.poll_pending_transaction
  rw [if_pos hr, if_neg (by omega)]

theorem poll_ready {N M : Nat} (d : Enc28j60 N M) (hr : d.ready = true) :
    d.poll_pending_transaction =
      match d.pending_transactions.pop_transaction with
      | .empty => some (none, d)
      | .popped ops t => some (some ops, { d with pending_transactions := t })
      | .fatal => none := by
  unfold Enc28j60.poll_pending_transaction
  rw [if_neg (by simp [hr])]

theorem handle_observes_ready {N M : Nat} {d d' : Enc28j60 N M}
    {tx : List ControlRegisterOperation}
    (h : d.handle_transaction tx = some d') (ho : observesReadyProbe tx = true) :
    d'.ready = true := by
  cases tx with
  | nil => simp [observesReadyProbe] at ho
  | cons op1 rest =>
    cases op1 with
    | Read b => simp [observesReadyProbe] at ho
    | Write b =>
      cases rest with
      | nil => simp [observesReadyProbe] at ho
      | cons op2 rest2 =>
        cases op2 with
        | Write b2 => simp [observesReadyProbe] at ho
        | Read buf =>
          cases buf with
          | nil => simp [observesReadyProbe] at ho
          | cons b0 bs =>
            simp only [observesReadyProbe, Bool.and_eq_true] at ho
            obtain ⟨hc, hbit⟩ := ho
            have hc2 : OpCode.RCR ||| ESTAT.val ∈ b := by simpa using hc
            have hbit2 : b0 % 2 = 1 := by
              simpa [Nat.and_one_is_mod] using hbit
            simp [Enc28j60.handle_transaction, hc2, hbit2, Nat.and_one_is_mod] at h
            rw [← h]

/-- C4: while `ready` is false every poll returns the synthesized ESTAT
probe and leaves the driver — and hence the engine queues — untouched; a
handled transaction that is a completed ESTAT probe whose read byte has bit
0 set makes `ready` true; once `ready` is true a poll hands out the next
queued engine transaction (or nothing when the engine is empty), never the
probe; and `ready` stays true across every further driver call, so the
driver never re-probes.  The bound `2 ≤ N` is what the probe construction's
unchecked deque pushes require (claim C10). -/
theorem claim_C4_ready_gating {N M : Nat} (hN : 2 ≤ N) :
    (∀ d : Enc28j60 N M, d.ready = false →
      d.poll_pending_transaction = some (some estatProbe, d)) ∧
    (∀ (d d' : Enc28j60 N M) (tx : List ControlRegisterOperation),
      d.handle_transaction tx = some d' → observesReadyProbe tx = true →
      d'.ready = true) ∧
    (∀ d : Enc28j60 N M, d.ready = true →
      d.poll_pending_transaction =
        match d.pending_transactions.pop_transaction with
        | .empty => some (none, d)
        | .popped ops t => some (some ops, { d with pending_transactions := t })
        | .fatal => none) ∧
    (∀ (calls : List DriverCall) (d d' : Enc28j60 N M),
      runDriverAny calls d = some d' → d.ready = true → d'.ready = true) :=
  ⟨fun d hr => poll_not_ready d hN hr,
   fun _ _ _ h ho => handle_observes_ready h ho,
   fun d hr => poll_ready d hr,
   fun calls d d' h hr => runDriverAny_ready calls d d' h hr⟩

/-- Witness for C4 at capacities 2/1: the not-ready driver polls the probe,
handling a completed probe with bit 0 set makes it ready, the ready driver
with an empty engine polls nothing, and readiness survives a further call. -/
theorem claim_C4_ready_gating_witness :
    ((Enc28j60.with_erx_range 0 0 : Enc28j60 2 1).poll_pending_transaction =
      some (some estatProbe, Enc28j60.with_erx_range 0 0)) ∧
    ((⟨.Bank0, ⟨[], []⟩, (0, 0), true⟩ : Enc28j60 2 1).ready = true) ∧
    ((⟨.Bank0, ⟨[], []⟩, (0, 0), true⟩ : Enc28j60 2 1).poll_pending_transaction =
      some (none, ⟨.Bank0, ⟨[], []⟩, (0, 0), true⟩)) ∧
    ((⟨.Bank1, ⟨[], []⟩, (0, 0), true⟩ : Enc28j60 2 1).ready = true) :=
  ⟨(claim_C4_ready_gating (by decide)).1 (Enc28j60.with_erx_range 0 0) rfl,
   (claim_C4_ready_gating (by decide)).2.1 (Enc28j60.with_erx_range 0 0)
     ⟨.Bank0, ⟨[], []⟩, (0, 0), true⟩ [.Write [0x1D], .Read [0x01]]
     (by decide) (by decide),
   (claim_C4_ready_gating (by decide)).2.2.1 ⟨.Bank0, ⟨[], []⟩, (0, 0), true⟩ rfl,
   (claim_C4_ready_gating (by decide)).2.2.2 [.handleC []]
     ⟨.Bank1, ⟨[], []⟩, (0, 0), true⟩ ⟨.Bank1, ⟨[], []⟩, (0, 0), true⟩
     (by decide) rfl⟩

/-- C8 counterexample: with operation capacity 2, two `read_register` calls
(the first succeeding, the second failing with `OperationsOutOfMemory` after
its `new_transaction` already opened a boundary), the readiness-probe reply,
and two polls — all public-interface calls — make the driver hand out an
empty transaction. -/
theorem claim_C8_empty_transaction_reachable :
    ((Enc28j60.read_register (Enc28j60.with_erx_range 0 496 : Enc28j60 2 10)
        ⟨.Bank0, 0x12⟩).bind fun p =>
      (p.1.read_register ⟨.Bank0, 0x12⟩).bind fun q =>
      (q.1.handle_transaction [.Write [0x1D], .Read [0x01]]).bind fun d2 =>
      (d2.poll_pending_transaction).bind fun r =>
      (r.2.poll_pending_transaction).map Prod.fst) = some (some []) ∧
    ((Enc28j60.read_register (Enc28j60.with_erx_range 0 496 : Enc28j60 2 10)
        ⟨.Bank0, 0x12⟩).map (fun p => p.2)) = some none ∧
    ((Enc28j60.read_register (Enc28j60.with_erx_range 0 496 : Enc28j60 2 10)
        ⟨.Bank0, 0x12⟩).bind fun p =>
      (p.1.read_register ⟨.Bank0, 0x12⟩).map Prod.snd) =
      some (some .OperationsOutOfMemory) :=
  ⟨by decide, by decide, by decide⟩

/-- C8 amended: along any driver-call history in which every engine call
succeeded (no capacity error), every transaction the driver hands out — by
`pop_transaction`, and hence by `poll_pending_transaction` — is non-empty. -/
theorem claim_C8_nonempty_transactions {N M : Nat} (calls : List DriverCall)
    (s e : Nat) (d : Enc28j60 N M)
    (h : runDriverOk calls (Enc28j60.with_erx_range s e) = some d) :
    (∀ (ops : List ControlRegisterOperation) (d' : Enc28j60 N M),
      d.poll_pending_transaction = some (some ops, d') → ops ≠ []) ∧
    (∀ (ops : List ControlRegisterOperation) (t' : Transactions N M),
      d.pending_transactions.pop_transaction = .popped ops t' → ops ≠ []) := by
  have hp : AllPosB d := runDriverOk_allpos calls _ d h
    (by intro x hx; simp [Enc28j60.with_erx_range] at hx)
  have hpop_ne : ∀ (ops : List ControlRegisterOperation) (t' : Transactions N M),
      d.pending_transactions.pop_transaction = .popped ops t' → ops ≠ [] := by
    intro ops t' hpop
    obtain ⟨-, hbnd⟩ := pop_transaction_popped hpop
    have hlen : 0 < ops.length :=
      hp ops.length (by rw [hbnd]; exact List.mem_cons_self _ _)
    intro hnil
    rw [hnil] at hlen
    simp at hlen
  refine ⟨?_, hpop_ne⟩
  intro ops d' hpoll
  by_cases hr : d.ready = false
  · unfold Enc28j60.poll_pending_transaction at hpoll
    rw [if_pos hr] at hpoll
    split_ifs at hpoll with h2
    simp only [Option.some.injEq, Prod.mk.injEq] at hpoll
    obtain ⟨hops, -⟩ := hpoll
    rw [← hops]
    simp [estatProbe]
  · unfold Enc28j60.poll_pending_transaction at hpoll
    rw [if_neg hr] at hpoll
    cases hpop : d.pending_transactions.pop_transaction with
    | empty =>
      rw [hpop] at hpoll
      simp at hpoll
    | fatal =>
      rw [hpop] at hpoll
      cases hpoll
    | popped ops2 t2 =>
      rw [hpop] at hpoll
      simp only [Option.some.injEq, Prod.mk.injEq] at hpoll
      obtain ⟨hops, -⟩ := hpoll
      rw [← hops]
      exact hpop_ne ops2 t2 hpop

/-- Witness for C8 (amended) after one successful `read_register` on a
fresh 2/10 driver: the probe poll hands a non-empty transaction, and the
engine pop hands the non-empty read transaction. -/
theorem claim_C8_nonempty_transactions_witness :
    estatProbe ≠ [] ∧
    ([.Write [0x12], .Read [0]] : List ControlRegisterOperation) ≠ [] :=
  ⟨(claim_C8_nonempty_transactions [.readRegC ⟨.Bank0, 0x12⟩] 0 496
      (⟨.Bank0, ⟨[.Write [0x12], .Read [0]], [2]⟩, (0, 496), false⟩ : Enc28j60 2 10)
      (by decide)).1 estatProbe
      ⟨.Bank0, ⟨[.Write [0x12], .Read [0]], [2]⟩, (0, 496), false⟩ (by decide),
   (claim_C8_nonempty_transactions [.readRegC ⟨.Bank0, 0x12⟩] 0 496
      (⟨.Bank0, ⟨[.Write [0x12], .Read [0]], [2]⟩, (0, 496), false⟩ : Enc28j60 2 10)
      (by decide)).2 [.Write [0x12], .Read [0]] ⟨[], []⟩ (by decide)⟩

/-- C10: every operation the driver ever enqueues holds at most 2 bytes, so
it fits the fixed capacity-2 byte vector; the synthesized ESTAT probe's
operations do too, and with `2 ≤ N` the probe's two unchecked deque pushes
fit the transaction buffer and the not-ready poll returns the probe; for
`N < 2` a not-ready poll aborts on the unchecked push. -/
theorem claim_C10_unwrap_safety {N M : Nat} :
    (∀ (calls : List DriverCall) (s e : Nat) (d : Enc28j60 N M),
      runDriverAny calls (Enc28j60.with_erx_range s e) = some d →
      ∀ op ∈ d.pending_transactions.buffer, op.opLen ≤ 2) ∧
    (∀ op ∈ estatProbe, op.opLen ≤ 2) ∧
    (∀ d : Enc28j60 N M, 2 ≤ N → d.ready = false →
      d.poll_pending_transaction = some (some estatProbe, d)) ∧
    (∀ d : Enc28j60 N M, N < 2 → d.ready = false →
      d.poll_pending_transaction = none) := by
  refine ⟨?_, by decide, ?_, ?_⟩
  · intro calls s e d h
    refine runDriverAny_buf2 calls _ d h ?_
    intro op hop
    simp [Enc28j60.with_erx_range] at hop
  · exact fun d h2 hr => poll_not_ready d h2 hr
  · exact fun d h2 hr => poll_not_ready_small d h2 hr

/-- Witness for C10: a concrete register write leaves only 2-byte
operations queued; at capacity 2 the not-ready poll returns the probe; at
capacity 1 it aborts. -/
theorem claim_C10_unwrap_safety_witness :
    (ControlRegisterOperation.Write [0x40, 0xAB]).opLen ≤ 2 ∧
    (ControlRegisterOperation.Read [0]).opLen ≤ 2 ∧
    ((Enc28j60.with_erx_range 0 0 : Enc28j60 2 1).poll_pending_transaction =
      some (some estatProbe, Enc28j60.with_erx_range 0 0)) ∧
    ((Enc28j60.with_erx_range 0 0 : Enc28j60 1 1).poll_pending_transaction = none) :=
  ⟨((@claim_C10_unwrap_safety 50 10).1 [.writeRegC ⟨.Bank0, 0x00⟩ 0xAB] 0 496
      (⟨.Bank0, ⟨[.Write [0x40, 0xAB]], [1]⟩, (0, 496), false⟩ : Enc28j60 50 10)
      (by decide)) (.Write [0x40, 0xAB]) (by decide),
   (@claim_C10_unwrap_safety 50 10).2.1 (.Read [0]) (by decide),
   (@claim_C10_unwrap_safety 2 1).2.2.1 (Enc28j60.with_erx_range 0 0) (by decide) rfl,
   (@claim_C10_unwrap_safety 1 1).2.2.2 (Enc28j60.with_erx_range 0 0) (by decide) rfl⟩

/-- Witness for C5: a pure read-result transaction is discarded unchanged,
and a probing write with no following read aborts. -/
theorem claim_C5_handle_abort_iff_witness :
    ((Enc28j60.with_erx_range 0 496 : Enc28j60 50 10).handle_transaction
        [.Read [0x07]] = some (Enc28j60.with_erx_range 0 496)) ∧
    ((Enc28j60.with_erx_range 0 496 : Enc28j60 50 10).handle_transaction
        [.Write [0x1D]] = none) :=
  ⟨claim_C5_handle_abort_iff.2 (Enc28j60.with_erx_range 0 496) [.Read [0x07]] (by decide),
   (claim_C5_handle_abort_iff.1 (Enc28j60.with_erx_range 0 496) [.Write [0x1D]]).mpr
     (by decide)⟩

/-! ### Lemmas about the enum generator -/

theorem reprBitsFor_eq_narrowest {m : Nat} (hm : m ≠ 2 ^ 64 - 1) :
    reprBitsFor m = narrowestBits m := by
  unfold reprBitsFor narrowestBits
  norm_num at hm ⊢
  split_ifs <;> omega

theorem makeEnumMaxValue_eq (bits : Nat) (h2 : bits ≤ 128) :
    makeEnumMaxValue bits = 2 ^ bits - 1 := by
  unfold makeEnumMaxValue
  by_cases hb : bits < 128
  · rw [if_pos hb]
    show (1 <<< bits) % 2 ^ 128 - 1 = 2 ^ bits - 1
    congr 1
    rw [Nat.shiftLeft_eq, one_mul]
    exact Nat.mod_eq_of_lt (Nat.pow_lt_pow_right (by norm_num) hb)
  · have hb2 : bits = 128 := by omega
    subst hb2
    rw [if_neg hb]
    rfl

/-- C9 counterexample: at width 64 the generated enum is backed by the
128-bit type although the 64-bit type is the narrowest unsigned type that
holds the maximum value `2^64 - 1`: the source's `repr_ty` range pattern
`..18_446_744_073_709_551_615` excludes `u64::MAX` itself. -/
theorem claim_C9_width64_not_narrowest :
    (make_enum 64).toOption.map GeneratedEnum.backingBits = some 128 ∧
    narrowestBits (2 ^ 64 - 1) = 64 ∧ (128 ≠ 64) :=
  ⟨rfl, by decide, by decide⟩

/-- C9 amended: for every width 1..=128 the generator emits the ordered,
closed enumeration of all `2^bits` values `0..2^bits-1`, each named `r`
followed by its value in uppercase hexadecimal zero-padded to at least two
digits, backed by the narrowest of the 8/16/32/64/128-bit unsigned types for
every width except 64 — where the exclusive `..u64::MAX` range pattern makes
it fall through to the 128-bit type; widths outside 1..=128 are rejected at
build time; width 5 yields 32 values backed by 8 bits and width 9 yields
512 values backed by 16 bits. -/
theorem claim_C9_make_enum (bits : Nat) (h1 : 1 ≤ bits) (h2 : bits ≤ 128) :
    make_enum bits = .ok
      { backingBits := reprBitsFor (2 ^ bits - 1)
        variants := (List.range (2 ^ bits)).map fun i => (variantName i, i) } ∧
    ((List.range (2 ^ bits)).map fun i => (variantName i, i)).length = 2 ^ bits ∧
    (((List.range (2 ^ bits)).map fun i => (variantName i, i)).map Prod.snd =
      List.range (2 ^ bits)) ∧
    (List.range (2 ^ bits)).Nodup ∧
    (((List.range (2 ^ bits)).map fun i => (variantName i, i)).map Prod.fst =
      (List.range (2 ^ bits)).map variantName) ∧
    (bits ≠ 64 → reprBitsFor (2 ^ bits - 1) = narrowestBits (2 ^ bits - 1)) ∧
    reprBitsFor (2 ^ 64 - 1) = 128 ∧
    ((make_enum 5).toOption.map (fun g => (g.backingBits, g.variants.length)) =
      some (8, 32)) ∧
    ((make_enum 9).toOption.map (fun g => (g.backingBits, g.variants.length)) =
      some (16, 512)) ∧
    (∀ b : Nat, b = 0 ∨ 128 < b →
      make_enum b = .error "bits must be between 1 and 128") := by
  have h21 : 2 ^ bits - 1 + 1 = 2 ^ bits :=
    Nat.succ_pred_eq_of_pos (Nat.pow_pos (by norm_num))
  refine ⟨?_, by simp, by simp [List.map_map, Function.comp_def],
    List.nodup_range (2 ^ bits),
    by simp [List.map_map, Function.comp_def], ?_, by decide,
    by set_option maxRecDepth 4096 in decide,
    by set_option maxRecDepth 16384 in decide, ?_⟩
  · unfold make_enum
    rw [if_pos ⟨by omega, h2⟩, makeEnumMaxValue_eq bits h2, h21]
  · intro h64
    refine reprBitsFor_eq_narrowest ?_
    intro hEq
    apply h64
    have hpow : 2 ^ bits = 2 ^ 64 := by
      have e1 : 0 < 2 ^ bits := Nat.pow_pos (by norm_num)
      have e2 : 0 < 2 ^ 64 := Nat.pow_pos (by norm_num)
      omega
    exact Nat.pow_right_injective (by norm_num) hpow
  · intro b hb
    unfold make_enum
    rw [if_neg (by omega)]

/-- Witness for C9 (amended) at width 5, and rejection at width 0. -/
theorem claim_C9_make_enum_witness :
    reprBitsFor (2 ^ 5 - 1) = narrowestBits (2 ^ 5 - 1) ∧
    make_enum 0 = .error "bits must be between 1 and 128" :=
  ⟨(claim_C9_make_enum 5 (by decide) (by decide)).2.2.2.2.2.1 (by decide),
   (claim_C9_make_enum 5 (by decide) (by decide)).2.2.2.2.2.2.2.2.2 0 (.inl rfl)⟩

end DiyRouter
